import Mathlib

/-!
# Verification of the KERALA-MAP-ANALYSER optimal-location core

Shallow embedding of `src/backend/app.py`: the `OptimalLocationFinder` class
(zone partition, cost-ranked extraction, flood-fill connectivity clusterer)
and the `/api/find-optimal-locations` route handler.

Python `float` values (coordinates, costs, densities) are modelled as exact
rationals `ℚ`; `round(x, p)` is modelled as round-half-to-even at `p` decimal
digits, which is Python's documented rounding mode; `int(x)` on a real value
is truncation toward zero.  `np.median` of a list is the middle element of the
sorted list (odd length) or the mean of the two middle elements (even length).
Python dicts keyed by grid keys are modelled as association lists where the
most recent insertion wins, and Python sets as `Finset` / membership lists.
-/

/-! ## Numeric helpers: decimal logarithm and rounding -/

/-- Fuel-driven base-10 logarithm on naturals: `natLog10F f n` is
`⌊log10 n⌋` for `1 ≤ n` whenever `n ≤ f` (0 for `n = 0`). -/
def natLog10F : ℕ → ℕ → ℕ
  | 0, _ => 0
  | f + 1, n => if n < 10 then 0 else natLog10F f (n / 10) + 1

/-- `⌊log10 n⌋` for `1 ≤ n` (and `0` for `n = 0`). -/
def natLog10 (n : ℕ) : ℕ := natLog10F n n

/-- `⌈log10 n⌉` for `1 ≤ n`: the least `k` with `n ≤ 10 ^ k`. -/
def natClog10 (n : ℕ) : ℕ := if n ≤ 1 then 0 else natLog10 (n - 1) + 1

/-- `int(-log10 s)` for a positive rational `s`, exactly as Python's `int`
(truncation toward zero) applied to the real number `-log10 s`:
for `s ≤ 1` this is `⌊log10 (1/s)⌋ ≥ 0`, and for `1 < s` it is
`-⌊log10 s⌋ ≤ 0`. -/
def truncNegLog10 (s : ℚ) : ℤ :=
  if 1 ≤ s then -(natLog10 ⌊s⌋.toNat : ℤ) else (natLog10 ⌊s⁻¹⌋.toNat : ℤ)

/-- `⌊-log10 s⌋` for a positive rational `s` (the formula the spec states for
the quantization precision): for `s ≤ 1` it agrees with `truncNegLog10`, and
for `1 < s` it is `-⌈log10 s⌉`. -/
def floorNegLog10 (s : ℚ) : ℤ :=
  if 1 ≤ s then -(natClog10 ⌈s⌉.toNat : ℤ) else (natLog10 ⌊s⁻¹⌋.toNat : ℤ)

/-- `10 ^ p` as a rational, for an integer exponent `p`. -/
def rpow10 (p : ℤ) : ℚ :=
  if 0 ≤ p then ((10 ^ p.toNat : ℕ) : ℚ) else ((10 ^ (-p).toNat : ℕ) : ℚ)⁻¹

/-- Round a rational to the nearest integer, ties to the even integer
(Python's rounding mode for `round`). -/
def roundHalfEven (x : ℚ) : ℤ :=
  let n := ⌊x⌋
  let r := x - n
  if r < 1 / 2 then n
  else if 1 / 2 < r then n + 1
  else if n % 2 = 0 then n else n + 1

/-- Python's `round(x, p)`: the multiple of `10 ^ (-p)` nearest to `x`,
ties to even. -/
def round_to (x : ℚ) (p : ℤ) : ℚ := ((roundHalfEven (x * rpow10 p) : ℤ) : ℚ) / rpow10 p

/-! ## Data model -/

/-- An input grid cell (`app.py` consumes dicts with these keys). -/
structure Cell where
  centerLat : ℚ
  centerLng : ℚ
  cost : ℚ
  density : ℚ
  nearestStationDistance : ℚ
  inPolygon : Bool
deriving DecidableEq

/-- The `(centerLat, centerLng)` identity key used for the `used_cell_keys`
set in `find_optimal_locations`. -/
def cellKey (c : Cell) : ℚ × ℚ := (c.centerLat, c.centerLng)

/-- Heat-map favourability zone. In `app.py` zones are the strings
`'🟢 GREEN'`, `'🟡 YELLOW'`, `'🔴 RED'`; we model them as an enumeration. -/
inductive Zone where
  | green
  | yellow
  | red
deriving DecidableEq

/-- Position of a zone in the processing order GREEN → YELLOW → RED. -/
def zoneIdx : Zone → ℕ
  | .green => 0
  | .yellow => 1
  | .red => 2

/-- `GREEN_THRESHOLD` from `app.py`: cost ≤ -33 is green. -/
def GREEN_THRESHOLD : ℚ := -33

/-- `YELLOW_THRESHOLD` from `app.py`: cost ≤ 33 (and > -33) is yellow. -/
def YELLOW_THRESHOLD : ℚ := 33

/-- Zone of a cost value, per the `if cost <= GREEN_THRESHOLD ... elif
cost <= YELLOW_THRESHOLD ... else ...` partition in `OptimalLocationFinder`. -/
def zoneOfCost (x : ℚ) : Zone :=
  if x ≤ GREEN_THRESHOLD then .green else if x ≤ YELLOW_THRESHOLD then .yellow else .red

/-- The `{'lat', 'lng', 'cost'}` records serialized into a sub-location's
`cells` list. -/
structure OutCell where
  lat : ℚ
  lng : ℚ
  cost : ℚ
deriving DecidableEq

/-- One connected sub-region of a cost rank (`sub_location` dict in
`find_optimal_locations`). -/
structure SubLocation where
  subIndex : ℕ
  cellCount : ℕ
  cells : List OutCell
  minLat : ℚ
  maxLat : ℚ
  minLng : ℚ
  maxLng : ℚ
  avgDensity : ℚ
  avgNearestStation : ℚ
  latitude : ℚ
  longitude : ℚ
deriving DecidableEq

/-- One cost rank (`cost_rank` dict in `find_optimal_locations`). -/
structure CostRank where
  costRank : ℕ
  cost : ℚ
  zone : Zone
  subLocationCount : ℕ
  totalCellCount : ℕ
  subLocations : List SubLocation
deriving DecidableEq

/-! ## Connectivity clusterer (`find_connected_regions`) -/

/-- Python tuple comparison `(a.centerLat, a.centerLng) <= (b.centerLat,
b.centerLng)`: the sort key of `sorted(cells, key=...)`. -/
def cellLatLngLe (a b : Cell) : Prop :=
  a.centerLat < b.centerLat ∨ (a.centerLat = b.centerLat ∧ a.centerLng ≤ b.centerLng)

instance : DecidableRel cellLatLngLe := fun a b => by
  unfold cellLatLngLe; infer_instance

instance : IsTotal Cell cellLatLngLe where
  total a b := by
    unfold cellLatLngLe
    rcases lt_trichotomy a.centerLat b.centerLat with h | h | h
    · exact Or.inl (Or.inl h)
    · rcases le_total a.centerLng b.centerLng with h2 | h2
      · exact Or.inl (Or.inr ⟨h, h2⟩)
      · exact Or.inr (Or.inr ⟨h.symm, h2⟩)
    · exact Or.inr (Or.inl h)

instance : IsTrans Cell cellLatLngLe where
  trans a b c hab hbc := by
    unfold cellLatLngLe at *
    rcases hab with h | ⟨h1, h2⟩ <;> rcases hbc with h' | ⟨h1', h2'⟩
    · exact Or.inl (h.trans h')
    · exact Or.inl (h1' ▸ h)
    · exact Or.inl (h1 ▸ h')
    · exact Or.inr ⟨h1.trans h1', h2.trans h2'⟩

/-- `sorted(cells, key=lambda c: (c['centerLat'], c['centerLng']))`. -/
def sortCells (cells : List Cell) : List Cell := List.insertionSort cellLatLngLe cells

/-- `np.median`: middle of the sorted list, or mean of the two middles. -/
def medianQ (xs : List ℚ) : ℚ :=
  let s := List.insertionSort (· ≤ ·) xs
  if s.length % 2 = 1 then s.getD (s.length / 2) 0
  else (s.getD (s.length / 2 - 1) 0 + s.getD (s.length / 2) 0) / 2

/-- Placeholder cell for (never-taken) out-of-range list indexing. -/
def defaultCell : Cell := ⟨0, 0, 0, 0, 0, false⟩

/-- The positive latitude deltas of the first `min(10, len-1)` consecutive
pairs of the sorted cell list. -/
def latDiffsOf (s : List Cell) : List ℚ :=
  ((List.range (min 10 (s.length - 1))).map
    (fun i => |(s.getD (i + 1) defaultCell).centerLat - (s.getD i defaultCell).centerLat|)).filter
    (fun d => decide (0 < d))

/-- The positive longitude deltas of the first `min(10, len-1)` consecutive
pairs of the sorted cell list. -/
def lngDiffsOf (s : List Cell) : List ℚ :=
  ((List.range (min 10 (s.length - 1))).map
    (fun i => |(s.getD (i + 1) defaultCell).centerLng - (s.getD i defaultCell).centerLng|)).filter
    (fun d => decide (0 < d))

/-- Grid-spacing inference from `find_connected_regions` (lines 94-113 of
`app.py`): minimum of the two medians, defaulting a direction with no
positive deltas to `0.0005`; `0.0005` outright for fewer than two cells. -/
def inferGridSpacing (cells : List Cell) : ℚ :=
  if 2 ≤ cells.length then
    let s := sortCells cells
    let lat_diffs := latDiffsOf s
    let lng_diffs := lngDiffsOf s
    min (if lat_diffs = [] then 0.0005 else medianQ lat_diffs)
      (if lng_diffs = [] then 0.0005 else medianQ lng_diffs)
  else 0.0005

/-- `precision = int(-math.log10(grid_spacing)) + 1`. -/
def gridPrecision (s : ℚ) : ℤ := truncNegLog10 s + 1

/-- `grid_key(lat, lng) = (round(lat, precision), round(lng, precision))`. -/
def grid_key (p : ℤ) (lat lng : ℚ) : ℚ × ℚ := (round_to lat p, round_to lng p)

/-- Grid key of a cell's centre. -/
def cellGridKey (p : ℤ) (c : Cell) : ℚ × ℚ := grid_key p c.centerLat c.centerLng

/-- `cell_map[grid_key(...)] = cell` built over the input list; the head of
the association list is the most recent insertion, so lookups see the last
write, like a Python dict. -/
def buildCellMap (p : ℤ) (cells : List Cell) : List ((ℚ × ℚ) × Cell) :=
  cells.foldl (fun m c => (cellGridKey p c, c) :: m) []

/-- Dict lookup (first hit in the association list = last write). -/
def mapLookup : List ((ℚ × ℚ) × Cell) → ℚ × ℚ → Option Cell
  | [], _ => none
  | (k, c) :: m, k0 => if k0 = k then some c else mapLookup m k0

/-- The 8-directional neighbour offsets (N, S, W, E, NW, NE, SW, SE). -/
def neighbor_offsets (g : ℚ) : List (ℚ × ℚ) :=
  [(-g, 0), (g, 0), (0, -g), (0, g), (-g, -g), (-g, g), (g, -g), (g, g)]

/-- The stack-based flood fill of `find_connected_regions` (lines 149-166).
`visited` is the visited-key set (as a list), the Lean list head is the top
of the Python stack, and the region accumulates looked-up cells in visit
order.  Fuel-driven; `find_connected_regions` supplies fuel
`9 * m.length + 1`, which lemma `floodLoop_spec` shows is never exhausted. -/
def floodLoop (m : List ((ℚ × ℚ) × Cell)) (offs : List (ℚ × ℚ)) (p : ℤ) :
    ℕ → List (ℚ × ℚ) → List (ℚ × ℚ) → List Cell → List Cell × List (ℚ × ℚ)
  | 0, visited, _, region => (region, visited)
  | _ + 1, visited, [], region => (region, visited)
  | fuel + 1, visited, k :: stack, region =>
    if k ∈ visited then floodLoop m offs p fuel visited stack region
    else
      match mapLookup m k with
      | none => floodLoop m offs p fuel visited stack region
      | some c =>
        let visited1 := k :: visited
        let nbrs := (offs.map (fun d => grid_key p (k.1 + d.1) (k.2 + d.2))).filter
          (fun nk => (mapLookup m nk).isSome && decide (nk ∉ visited1))
        floodLoop m offs p fuel visited1 (nbrs.reverse ++ stack) (region ++ [c])

/-- The outer `for cell in cells` loop of `find_connected_regions`
(lines 140-169): start a flood fill at each unvisited cell key and collect
the non-empty regions in discovery order. -/
def floodAll (m : List ((ℚ × ℚ) × Cell)) (offs : List (ℚ × ℚ)) (p : ℤ) (fuel : ℕ) :
    List Cell → List (ℚ × ℚ) → List (List Cell) → List (List Cell) × List (ℚ × ℚ)
  | [], visited, regions => (regions, visited)
  | c :: cs, visited, regions =>
    let start := cellGridKey p c
    if start ∈ visited then floodAll m offs p fuel cs visited regions
    else
      let rv := floodLoop m offs p fuel visited [start] []
      floodAll m offs p fuel cs rv.2 (if rv.1 = [] then regions else regions ++ [rv.1])

/-- `OptimalLocationFinder.find_connected_regions` (lines 80-171 of
`app.py`). -/
def find_connected_regions (cells : List Cell) : List (List Cell) :=
  if cells = [] then []
  else
    let g := inferGridSpacing cells
    let p := gridPrecision g
    let m := buildCellMap p cells
    (floodAll m (neighbor_offsets g) p (9 * m.length + 1) cells [] []).1

/-! ## Rank extraction (`find_optimal_locations`) -/

/-- `min(cell['cost'] for cell in zone_available)` (left fold, as Python's
`min` over an iterator; `0` for the never-queried empty list). -/
def minCostOf : List Cell → ℚ
  | [] => 0
  | c :: cs => cs.foldl (fun acc x => min acc x.cost) c.cost

/-- Python `min` over a nonempty list of rationals. -/
def listMinQ : List ℚ → ℚ
  | [] => 0
  | x :: xs => xs.foldl min x

/-- Python `max` over a nonempty list of rationals. -/
def listMaxQ : List ℚ → ℚ
  | [] => 0
  | x :: xs => xs.foldl max x

/-- Python `sum` (left fold from 0). -/
def listSumQ (xs : List ℚ) : ℚ := xs.foldl (· + ·) 0

/-- The `sub_location` record built for one connected region
(lines 241-270 of `app.py`). -/
def mkSubLocation (i : ℕ) (region_cells : List Cell) : SubLocation :=
  let lats := region_cells.map (·.centerLat)
  let lngs := region_cells.map (·.centerLng)
  { subIndex := i
    cellCount := region_cells.length
    cells := region_cells.map (fun c => ⟨c.centerLat, c.centerLng, c.cost⟩)
    minLat := listMinQ lats
    maxLat := listMaxQ lats
    minLng := listMinQ lngs
    maxLng := listMaxQ lngs
    avgDensity := listSumQ (region_cells.map (·.density)) / region_cells.length
    avgNearestStation := listSumQ (region_cells.map (·.nearestStationDistance)) / region_cells.length
    latitude := listSumQ lats / lats.length
    longitude := listSumQ lngs / lngs.length }

/-- Enumerate the connected regions as sub-locations. -/
def mkSubLocations (regions : List (List Cell)) : List SubLocation :=
  regions.enum.map (fun ic => mkSubLocation ic.1 ic.2)

/-- The `cost_rank` record built for one iteration of the inner `while`
loop of `find_optimal_locations` (lines 236-281 of `app.py`). -/
def mkCostRank (rankNum : ℕ) (min_cost : ℚ) (z : Zone) (min_cost_cells : List Cell) : CostRank :=
  let subs := mkSubLocations (find_connected_regions min_cost_cells)
  { costRank := rankNum
    cost := min_cost
    zone := z
    subLocationCount := subs.length
    totalCellCount := min_cost_cells.length
    subLocations := subs }

/-- The inner `while zone_available and len(optimal_ranks) < n` loop of
`find_optimal_locations` (lines 216-287): extract one minimum-cost rank per
iteration, marking its cells used by `(centerLat, centerLng)` key.
Fuel-driven: every iteration appends exactly one rank and the loop guard
requires `ranks.length < n`, so the loop runs at most `n - ranks.length`
times; `find_optimal_locations` passes fuel `n`, which is never exhausted
(lemma `extractZoneRanks_fuel_irrel`). -/
def extractZoneRanks (n : ℕ) (zone_cells : List Cell) (z : Zone) :
    ℕ → Finset (ℚ × ℚ) → List CostRank → List CostRank × Finset (ℚ × ℚ)
  | 0, used, ranks => (ranks, used)
  | fuel + 1, used, ranks =>
    let zone_available := zone_cells.filter (fun c => decide (cellKey c ∉ used))
    if zone_available ≠ [] ∧ ranks.length < n then
      let min_cost := minCostOf zone_available
      let min_cost_cells := zone_available.filter (fun c => decide (c.cost = min_cost))
      let used1 := min_cost_cells.foldl (fun u c => insert (cellKey c) u) used
      extractZoneRanks n zone_cells z fuel used1
        (ranks ++ [mkCostRank (ranks.length + 1) min_cost z min_cost_cells])
    else (ranks, used)

/-- The state of an `OptimalLocationFinder` after `__init__` (lines 31-65 of
`app.py`): polygon filter, zone partition, and the stored (unused)
`min_distance_km` parameter. -/
structure OptimalLocationFinder where
  polygon_cells : List Cell
  n_stations : ℕ
  min_distance_km : ℚ
  green_cells : List Cell
  yellow_cells : List Cell
  red_cells : List Cell
deriving DecidableEq

/-- `OptimalLocationFinder.__init__` (the zone partition is by the
`cost ≤ -33 / cost ≤ 33 / else` chain). -/
def OptimalLocationFinder.make (cells : List Cell) (n : ℕ) (d : ℚ) : OptimalLocationFinder :=
  let poly := cells.filter (·.inPolygon)
  { polygon_cells := poly
    n_stations := n
    min_distance_km := d
    green_cells := poly.filter (fun c => decide (c.cost ≤ GREEN_THRESHOLD))
    yellow_cells := poly.filter (fun c => decide (GREEN_THRESHOLD < c.cost ∧ c.cost ≤ YELLOW_THRESHOLD))
    red_cells := poly.filter (fun c => decide (YELLOW_THRESHOLD < c.cost)) }

/-- `OptimalLocationFinder.find_optimal_locations` (lines 173-299 of
`app.py`): process the zones GREEN → YELLOW → RED, skipping a zone when
`n` ranks exist already or the zone pool is empty. -/
def OptimalLocationFinder.find_optimal_locations (f : OptimalLocationFinder) : List CostRank :=
  let zones := [(Zone.green, f.green_cells), (Zone.yellow, f.yellow_cells), (Zone.red, f.red_cells)]
  (zones.foldl
    (fun acc zp =>
      if f.n_stations ≤ acc.1.length then acc
      else if zp.2 = [] then acc
      else extractZoneRanks f.n_stations zp.2 zp.1 f.n_stations acc.2 acc.1)
    (([] : List CostRank), (∅ : Finset (ℚ × ℚ)))).1

/-! ## Route handler (`/api/find-optimal-locations`, lines 302-388) -/

/-- Observable JSON body and status of a response of the route handler.
`none` fields are keys absent from the JSON body.  (`executionTime`, real
wall-clock time, is outside the model.) -/
structure ApiResponse where
  status : ℕ
  success : Option Bool
  error : Option String
  locations : Option (List CostRank)
  cellsProcessed : Option ℕ
  locationsFound : Option ℕ
deriving DecidableEq

/-- The route handler `find_optimal_locations` (lines 345-388 of `app.py`):
empty `cells` and `n ≤ 0` are rejected with a bare `{'error': ...}` body and
status 400 before the finder is built; a cell list with no in-polygon cell
makes `__init__` raise `ValueError("No cells found inside polygon")`, caught
by the `except` clause which returns `{'success': False, 'error': ...}` with
status 500; otherwise the rank list is computed and returned with
`success: True`. -/
def handle_find_optimal_locations (cells : List Cell) (n : ℤ) (minDistanceKm : ℚ) : ApiResponse :=
  if cells = [] then
    { status := 400, success := none, error := some "No cells provided",
      locations := none, cellsProcessed := none, locationsFound := none }
  else if n ≤ 0 then
    { status := 400, success := none, error := some "Number of stations must be > 0",
      locations := none, cellsProcessed := none, locationsFound := none }
  else if cells.filter (·.inPolygon) = [] then
    { status := 500, success := some false, error := some "No cells found inside polygon",
      locations := none, cellsProcessed := none, locationsFound := none }
  else
    let finder := OptimalLocationFinder.make cells n.toNat minDistanceKm
    let locations := finder.find_optimal_locations
    { status := 200, success := some true, error := none,
      locations := some locations,
      cellsProcessed := some finder.polygon_cells.length,
      locationsFound := some locations.length }

/-! ## Reference recursion and output-derived state (for the theorems) -/

/-- The in-polygon (eligible) cells of a request. -/
def polyCellsOf (cells : List Cell) : List Cell := cells.filter (·.inPolygon)

/-- Reference presentation of the whole extraction loop, zone structure
erased: repeatedly take the minimum-cost available eligible cells (the zone
of a rank being forced by its cost).  `find_optimal_locations` is proved
extensionally equal to this recursion
(`find_optimal_locations_eq_specExtract`). -/
def specExtract (poly : List Cell) : ℕ → ℕ → Finset (ℚ × ℚ) → List CostRank
  | 0, _, _ => []
  | k + 1, base, used =>
    let avail := poly.filter (fun c => decide (cellKey c ∉ used))
    if avail = [] then []
    else
      let m := minCostOf avail
      let sel := avail.filter (fun c => decide (c.cost = m))
      mkCostRank (base + 1) m (zoneOfCost m) sel ::
        specExtract poly k (base + 1) (sel.foldl (fun u c => insert (cellKey c) u) used)

/-- Junk rank used for (never-taken) out-of-range rank indexing. -/
def junkRank : CostRank := ⟨0, 0, Zone.green, 0, 0, []⟩

/-- The `i`-th rank of an output list. -/
def rankAt (R : List CostRank) (i : ℕ) : CostRank := R.getD i junkRank

/-- The keys a single rank of cost `m` consumes (marks used): keys of every
eligible cell of cost `m` that was still available. -/
def consumedKeys (poly : List Cell) (m : ℚ) (used : Finset (ℚ × ℚ)) : Finset (ℚ × ℚ) :=
  ((poly.filter (fun c => decide (c.cost = m) && decide (cellKey c ∉ used))).map cellKey).toFinset

/-- The used-key set after the first `i` ranks of an output `R`, starting
from the set `start`, reconstructed from the ranks' costs. -/
def usedFrom (poly : List Cell) (R : List CostRank) (start : Finset (ℚ × ℚ)) :
    ℕ → Finset (ℚ × ℚ)
  | 0 => start
  | i + 1 => usedFrom poly R start i ∪ consumedKeys poly (rankAt R i).cost (usedFrom poly R start i)

/-- The used-key set after the first `i` ranks of an output `R`,
reconstructed from the ranks' costs. -/
def usedUpTo (poly : List Cell) (R : List CostRank) (i : ℕ) : Finset (ℚ × ℚ) :=
  usedFrom poly R ∅ i

/-- The eligible cells not yet consumed when rank `i` of output `R` is
computed. -/
def availAt (poly : List Cell) (R : List CostRank) (i : ℕ) : List Cell :=
  poly.filter (fun c => decide (cellKey c ∉ usedUpTo poly R i))

/-- The set of distinct cost values of a cell list. -/
def distinctCosts (l : List Cell) : Finset ℚ := (l.map (·.cost)).toFinset

/-- The serialized cells of one rank (all sub-locations concatenated). -/
def rankCells (r : CostRank) : List OutCell := r.subLocations.flatMap (·.cells)

/-- The serialized cells of a whole response, in output order. -/
def allRankCells (R : List CostRank) : List OutCell := R.flatMap rankCells

/-- Identity key of a serialized cell. -/
def outKey (oc : OutCell) : ℚ × ℚ := (oc.lat, oc.lng)

/-! ## Adjacency in quantized key space (for the clusterer claims) -/

/-- `k2` is one of the eight quantized neighbour keys of `k1`: some offset
`d` (among `neighbor_offsets`) has `grid_key (k1 + d) = k2`.  This is the
relation the flood fill explores. -/
def keyAdj (p : ℤ) (offs : List (ℚ × ℚ)) (k1 k2 : ℚ × ℚ) : Prop :=
  ∃ d ∈ offs, grid_key p (k1.1 + d.1) (k1.2 + d.2) = k2

instance (p : ℤ) (offs : List (ℚ × ℚ)) (k1 k2 : ℚ × ℚ) : Decidable (keyAdj p offs k1 k2) := by
  unfold keyAdj; infer_instance

/-- The precision a clusterer call on `cells` quantizes with. -/
def inferredPrecision (cells : List Cell) : ℤ := gridPrecision (inferGridSpacing cells)

/-- 8-neighbour adjacency between two cells, in the key space the clusterer
infers for the input `cells`. -/
def cellAdj (cells : List Cell) (c1 c2 : Cell) : Prop :=
  keyAdj (inferredPrecision cells) (neighbor_offsets (inferGridSpacing cells))
    (cellGridKey (inferredPrecision cells) c1) (cellGridKey (inferredPrecision cells) c2)

instance (cells : List Cell) (c1 c2 : Cell) : Decidable (cellAdj cells c1 c2) := by
  unfold cellAdj; infer_instance

/-- No two distinct input cells share a quantized grid key (rules out the
last-write-wins dict collision that silently drops a cell). -/
def KeysInjective (cells : List Cell) : Prop :=
  ∀ c1 ∈ cells, ∀ c2 ∈ cells,
    cellGridKey (inferredPrecision cells) c1 = cellGridKey (inferredPrecision cells) c2 → c1 = c2

instance (cells : List Cell) : Decidable (KeysInjective cells) := by
  unfold KeysInjective; infer_instance

/-- The quantized neighbour relation is symmetric on the input's keys.
(It can fail at rounding ties, where `round` is not translation
invariant.) -/
def AdjSymmetric (cells : List Cell) : Prop :=
  ∀ c1 ∈ cells, ∀ c2 ∈ cells, cellAdj cells c1 c2 → cellAdj cells c2 c1

instance (cells : List Cell) : Decidable (AdjSymmetric cells) := by
  unfold AdjSymmetric; infer_instance

/-- No two eligible cells share a `(centerLat, centerLng)` key while
disagreeing on cost (rules out a key marked used by one cost group silently
blocking a different-cost cell). -/
def SameKeySameCost (poly : List Cell) : Prop :=
  ∀ c1 ∈ poly, ∀ c2 ∈ poly, cellKey c1 = cellKey c2 → c1.cost = c2.cost

instance (poly : List Cell) : Decidable (SameKeySameCost poly) := by
  unfold SameKeySameCost; infer_instance

/-- The partition a clusterer run produces, as a set of cell sets. -/
def partitionOf (cells : List Cell) : Finset (Finset Cell) :=
  ((find_connected_regions cells).map List.toFinset).toFinset

/-- The spacing-inference formula as the specification words it: sort by
`(lat, lng)`, take (up to) the first 10 consecutive pairs, collect the
positive absolute deltas per direction, default an empty direction's median
to `0.0005`, and return the minimum of the two medians. -/
def specSpacing (cells : List Cell) : ℚ :=
  let s := sortCells cells
  let pairs := (s.zip s.tail).take 10
  let latDs := (pairs.map (fun pr => |pr.2.centerLat - pr.1.centerLat|)).filter (fun d => decide (0 < d))
  let lngDs := (pairs.map (fun pr => |pr.2.centerLng - pr.1.centerLng|)).filter (fun d => decide (0 < d))
  min (if latDs = [] then 0.0005 else medianQ latDs)
    (if lngDs = [] then 0.0005 else medianQ lngDs)

/-- Marking a list of cells used: fold `used_cell_keys.add((lat, lng))` over
the list (the `for cell in min_cost_cells` loop of `find_optimal_locations`).
Definitionally the fold appearing in `extractZoneRanks` and `specExtract`. -/
def insertKeys (l : List Cell) (u : Finset (ℚ × ℚ)) : Finset (ℚ × ℚ) :=
  l.foldl (fun u c => insert (cellKey c) u) u

/-- The pool of eligible cells of one zone, as a filter by `zoneOfCost`
(proved equal to the threshold filters of `OptimalLocationFinder.make`). -/
def zonePool (poly : List Cell) (z : Zone) : List Cell :=
  poly.filter (fun c => decide (zoneOfCost c.cost = z))

/-- A small concrete request used by the witnesses: two green cells on a
0.001-degree diagonal, one yellow cell, and one out-of-polygon cell. -/
def sampleCells : List Cell :=
  [⟨0, 0, -40, 5, 2, true⟩, ⟨1/1000, 1/1000, -40, 7, 4, true⟩,
   ⟨1/100, 1/100, 10, 1, 1, true⟩, ⟨5, 5, 99, 0, 0, false⟩]

/-- Two in-polygon cells at the same `(centerLat, centerLng)` with different
costs: the first rank marks the shared key used, so the second cost group
can never be extracted. -/
def duplicateKeyCells : List Cell :=
  [⟨0, 0, -40, 0, 0, true⟩, ⟨0, 0, -35, 0, 0, true⟩]

/-- Three same-cost cells where the second rounds onto the first's grid key
(spacing is inferred as 0.0005, precision 4, and 0.00001 rounds to 0), so
the dict keeps only the later cell. -/
def collidingCells : List Cell :=
  [⟨0, 0, -40, 1, 0, true⟩, ⟨1/100000, 0, -40, 2, 0, true⟩, ⟨3/10, 0, -40, 3, 0, true⟩]

/-- `collidingCells` with its two key-colliding cells swapped: the
last-write-wins dict now keeps the other colliding cell, so the clusterer
partitions a different cell set. -/
def collidingCellsSwapped : List Cell :=
  [⟨1/100000, 0, -40, 2, 0, true⟩, ⟨0, 0, -40, 1, 0, true⟩, ⟨3/10, 0, -40, 3, 0, true⟩]

/-- A permutation (the reverse) of `sampleCells`, used by the C9 witness. -/
def sampleCellsPerm : List Cell :=
  [⟨5, 5, 99, 0, 0, false⟩, ⟨1/100, 1/100, 10, 1, 1, true⟩,
   ⟨1/1000, 1/1000, -40, 7, 4, true⟩, ⟨0, 0, -40, 5, 2, true⟩]

/-- Symmetrized adjacency restricted to keys present in the cell map: the
edge relation whose connected components the flood fill is proved to
compute. -/
def stepAdj (m : List ((ℚ × ℚ) × Cell)) (offs : List (ℚ × ℚ)) (p : ℤ) (k1 k2 : ℚ × ℚ) : Prop :=
  (mapLookup m k1).isSome ∧ (mapLookup m k2).isSome ∧ (keyAdj p offs k1 k2 ∨ keyAdj p offs k2 k1)

/-- Reachability along `stepAdj`. -/
def Reach (m : List ((ℚ × ℚ) × Cell)) (offs : List (ℚ × ℚ)) (p : ℤ) : ℚ × ℚ → ℚ × ℚ → Prop :=
  Relation.ReflTransGen (stepAdj m offs p)

/-- The quantized key one offset away from `k` (the key the flood fill
probes for a neighbour). -/
def nbrKey (p : ℤ) (k d : ℚ × ℚ) : ℚ × ℚ := grid_key p (k.1 + d.1) (k.2 + d.2)

/-- Number of map keys not yet visited (the flood-fill fuel measure). -/
def unvisCount (m : List ((ℚ × ℚ) × Cell)) (visited : List (ℚ × ℚ)) : ℕ :=
  ((m.map Prod.fst).toFinset.filter (fun k => k ∉ visited)).card

/-! ## Basic lemmas about the numeric helpers -/

theorem natLog10F_bounds : ∀ f n, 1 ≤ n → n ≤ f →
    10 ^ natLog10F f n ≤ n ∧ n < 10 ^ (natLog10F f n + 1) := by
  intro f
  induction f with
  | zero => intro n h1 h2; omega
  | succ f ih =>
    intro n h1 h2
    simp only [natLog10F]
    by_cases h : n < 10
    · simp only [if_pos h]
      constructor
      · simpa using h1
      · simpa using h
    · simp only [if_neg h]
      have hd1 : 1 ≤ n / 10 := (Nat.one_le_div_iff (by norm_num)).mpr (by omega)
      have hd2 : n / 10 ≤ f := by
        have := Nat.div_lt_self (show 0 < n by omega) (show 1 < 10 by norm_num)
        omega
      obtain ⟨l, u⟩ := ih (n / 10) hd1 hd2
      have hpow1 : (10:ℕ) ^ (natLog10F f (n / 10) + 1) = 10 ^ natLog10F f (n / 10) * 10 :=
        pow_succ 10 _
      have hpow2 : (10:ℕ) ^ (natLog10F f (n / 10) + 1 + 1) = 10 ^ (natLog10F f (n / 10) + 1) * 10 :=
        pow_succ 10 _
      have hmod := Nat.div_add_mod n 10
      have hr : n % 10 < 10 := Nat.mod_lt _ (by norm_num)
      omega

theorem natLog10_bounds (n : ℕ) (h : 1 ≤ n) :
    10 ^ natLog10 n ≤ n ∧ n < 10 ^ (natLog10 n + 1) :=
  natLog10F_bounds n n h le_rfl

theorem natLog10_one : natLog10 1 = 0 := rfl

theorem truncNegLog10_eq_floor_of_le_one (s : ℚ) (h1 : s ≤ 1) :
    truncNegLog10 s = floorNegLog10 s := by
  unfold truncNegLog10 floorNegLog10
  by_cases h : 1 ≤ s
  · have hs : s = 1 := le_antisymm h1 h
    subst hs
    norm_num [natClog10, natLog10_one]
  · simp [h]

theorem floorNegLog10_bracket (s : ℚ) (h0 : 0 < s) (h1 : s ≤ 1) :
    rpow10 (floorNegLog10 s) ≤ s⁻¹ ∧ s⁻¹ < rpow10 (floorNegLog10 s + 1) := by
  have hinv1 : (1:ℚ) ≤ s⁻¹ := one_le_inv_iff₀.mpr ⟨h0, h1⟩
  by_cases hs1 : 1 ≤ s
  · have hs : s = 1 := le_antisymm h1 hs1
    subst hs
    norm_num [floorNegLog10, natClog10, rpow10]
  · have hfl : floorNegLog10 s = (natLog10 ⌊s⁻¹⌋.toNat : ℤ) := by
      unfold floorNegLog10; rw [if_neg hs1]
    have hfloor1 : (1:ℤ) ≤ ⌊s⁻¹⌋ := Int.le_floor.mpr (by exact_mod_cast hinv1)
    set m := ⌊s⁻¹⌋.toNat with hm
    have hm1 : 1 ≤ m := by omega
    have hmz : (m : ℤ) = ⌊s⁻¹⌋ := by omega
    obtain ⟨lb, ub⟩ := natLog10_bounds m hm1
    have hk0 : (0:ℤ) ≤ (natLog10 m : ℤ) := Int.natCast_nonneg _
    have hmq : (m : ℚ) = ((⌊s⁻¹⌋ : ℤ) : ℚ) := by exact_mod_cast congrArg (fun z : ℤ => (z : ℚ)) hmz
    constructor
    · rw [hfl]
      unfold rpow10
      rw [if_pos hk0, Int.toNat_natCast]
      calc ((10 ^ natLog10 m : ℕ) : ℚ) ≤ (m : ℚ) := by exact_mod_cast lb
        _ ≤ s⁻¹ := by rw [hmq]; exact Int.floor_le _
    · rw [hfl]
      unfold rpow10
      have h01 : (0:ℤ) ≤ (natLog10 m : ℤ) + 1 := by omega
      rw [if_pos h01]
      have htn : ((natLog10 m : ℤ) + 1).toNat = natLog10 m + 1 := by omega
      rw [htn]
      have hub : ((m:ℚ) + 1) ≤ ((10 ^ (natLog10 m + 1) : ℕ) : ℚ) := by exact_mod_cast ub
      calc s⁻¹ < (⌊s⁻¹⌋ : ℚ) + 1 := Int.lt_floor_add_one _
        _ = (m : ℚ) + 1 := by rw [hmq]
        _ ≤ _ := hub


theorem medianQ_pos (xs : List ℚ) (hne : xs ≠ []) (hpos : ∀ x ∈ xs, 0 < x) :
    0 < medianQ xs := by
  unfold medianQ
  have hperm : List.Perm (List.insertionSort (· ≤ ·) xs) xs := List.perm_insertionSort _ _
  set s := List.insertionSort (· ≤ ·) xs with hs
  have hspos : ∀ x ∈ s, 0 < x := fun x hx => hpos x (hperm.mem_iff.mp hx)
  have hlen : 0 < s.length := by
    rw [hperm.length_eq]
    exact List.length_pos.mpr hne
  by_cases hodd : s.length % 2 = 1
  · rw [if_pos hodd]
    have hidx : s.length / 2 < s.length := Nat.div_lt_self hlen (by norm_num)
    rw [List.getD_eq_getElem _ _ hidx]
    exact hspos _ (List.getElem_mem _)
  · rw [if_neg hodd]
    have hlen2 : 2 ≤ s.length := by omega
    have hidx1 : s.length / 2 - 1 < s.length := by omega
    have hidx2 : s.length / 2 < s.length := Nat.div_lt_self hlen (by norm_num)
    rw [List.getD_eq_getElem _ _ hidx1, List.getD_eq_getElem _ _ hidx2]
    have h1 := hspos _ (List.getElem_mem hidx1)
    have h2 := hspos _ (List.getElem_mem hidx2)
    positivity

theorem inferGridSpacing_pos (cells : List Cell) : 0 < inferGridSpacing cells := by
  unfold inferGridSpacing
  split
  · apply lt_min
    · split
      · norm_num
      · apply medianQ_pos _ (by assumption)
        intro x hx
        unfold latDiffsOf at hx
        have := List.of_mem_filter hx
        simpa using this
    · split
      · norm_num
      · apply medianQ_pos _ (by assumption)
        intro x hx
        unfold lngDiffsOf at hx
        have := List.of_mem_filter hx
        simpa using this
  · norm_num

theorem latDiffsOf_eq_zip (s : List Cell) :
    latDiffsOf s =
      (((s.zip s.tail).take 10).map (fun pr => |pr.2.centerLat - pr.1.centerLat|)).filter
        (fun d => decide (0 < d)) := by
  unfold latDiffsOf
  congr 1
  apply List.ext_getElem
  · simp [Nat.min_comm]
  · intro i h1 h2
    simp only [List.getElem_map, List.getElem_range, List.getElem_take]
    have hlen : i < min 10 (s.length - 1) := by simpa using h1
    have hi1 : i + 1 < s.length := by omega
    have hi0 : i < s.length := by omega
    have hz : i < (s.zip s.tail).length := by simp; omega
    rw [List.getD_eq_getElem _ _ hi1, List.getD_eq_getElem _ _ hi0]
    simp [List.getElem_zip, List.getElem_tail]

theorem lngDiffsOf_eq_zip (s : List Cell) :
    lngDiffsOf s =
      (((s.zip s.tail).take 10).map (fun pr => |pr.2.centerLng - pr.1.centerLng|)).filter
        (fun d => decide (0 < d)) := by
  unfold lngDiffsOf
  congr 1
  apply List.ext_getElem
  · simp [Nat.min_comm]
  · intro i h1 h2
    simp only [List.getElem_map, List.getElem_range, List.getElem_take]
    have hlen : i < min 10 (s.length - 1) := by simpa using h1
    have hi1 : i + 1 < s.length := by omega
    have hi0 : i < s.length := by omega
    rw [List.getD_eq_getElem _ _ hi1, List.getD_eq_getElem _ _ hi0]
    simp [List.getElem_zip, List.getElem_tail]

theorem inferGridSpacing_eq_specSpacing (cells : List Cell) (h : 2 ≤ cells.length) :
    inferGridSpacing cells = specSpacing cells := by
  unfold inferGridSpacing specSpacing
  rw [if_pos h]
  simp only [latDiffsOf_eq_zip, lngDiffsOf_eq_zip]

/-! ## Claim C7: spacing inference and quantization precision -/

unseal Rat.add Rat.mul Rat.inv Rat.sub Rat.ofScientific in
/-- C7 (counterexample): for the two-cell input `(0,0)` and `(2,3)` the
inferred spacing is `2` (the minimum of the medians `2` and `3`), and the
precision actually used for grid keys, `int(-log10 2) + 1 = 1`, differs from
the claimed `floor(-log10 2) + 1 = 0`: Python's `int` truncates toward zero
while `floor` rounds down, and they disagree for spacing `> 1`. -/
theorem C7_counterexample :
    inferGridSpacing [⟨0, 0, 0, 0, 0, true⟩, ⟨2, 3, 0, 0, 0, true⟩] = 2 ∧
    gridPrecision (inferGridSpacing [⟨0, 0, 0, 0, 0, true⟩, ⟨2, 3, 0, 0, 0, true⟩]) = 1 ∧
    floorNegLog10 (inferGridSpacing [⟨0, 0, 0, 0, 0, true⟩, ⟨2, 3, 0, 0, 0, true⟩]) + 1 = 0 := by
  refine ⟨by decide, by decide, by decide⟩

/-- C7 (amended): for at least two cells the inferred spacing equals the
spec's formula (medians of the positive deltas of the first up-to-10
consecutive sorted pairs, `0.0005` default, minimum of the two); the spacing
is positive; the precision used is `int(-log10 spacing) + 1` with `int`
truncating toward zero; and whenever the spacing is `≤ 1` — in particular at
any sub-degree grid resolution — this agrees with the claimed
`floor(-log10 spacing) + 1`, where `floorNegLog10` is genuinely
`⌊log10 (1/spacing)⌋` (bracketed by powers of ten). -/
theorem C7_spacing_and_precision (cells : List Cell) (h2 : 2 ≤ cells.length) :
    inferGridSpacing cells = specSpacing cells ∧
    0 < inferGridSpacing cells ∧
    gridPrecision (inferGridSpacing cells) = truncNegLog10 (inferGridSpacing cells) + 1 ∧
    (inferGridSpacing cells ≤ 1 →
      gridPrecision (inferGridSpacing cells) = floorNegLog10 (inferGridSpacing cells) + 1 ∧
      rpow10 (floorNegLog10 (inferGridSpacing cells)) ≤ (inferGridSpacing cells)⁻¹ ∧
      (inferGridSpacing cells)⁻¹ < rpow10 (floorNegLog10 (inferGridSpacing cells) + 1)) := by
  refine ⟨inferGridSpacing_eq_specSpacing cells h2, inferGridSpacing_pos cells, rfl, fun hle => ?_⟩
  refine ⟨?_, floorNegLog10_bracket _ (inferGridSpacing_pos cells) hle⟩
  unfold gridPrecision
  rw [truncNegLog10_eq_floor_of_le_one _ hle]

unseal Rat.add Rat.mul Rat.inv Rat.sub Rat.ofScientific in
/-- C7 (witness): the amended theorem applied to the concrete diagonal
two-cell input of spacing `0.001`. -/
theorem C7_spacing_and_precision_witness :
    2 ≤ ([⟨0, 0, 0, 0, 0, true⟩, ⟨1/1000, 1/1000, 0, 0, 0, true⟩] : List Cell).length ∧
    inferGridSpacing [⟨0, 0, 0, 0, 0, true⟩, ⟨1/1000, 1/1000, 0, 0, 0, true⟩] =
      specSpacing [⟨0, 0, 0, 0, 0, true⟩, ⟨1/1000, 1/1000, 0, 0, 0, true⟩] ∧
    inferGridSpacing [⟨0, 0, 0, 0, 0, true⟩, ⟨1/1000, 1/1000, 0, 0, 0, true⟩] = 1/1000 ∧
    gridPrecision (1/1000) = floorNegLog10 (1/1000) + 1 :=
  ⟨by decide,
   (C7_spacing_and_precision _ (by decide)).1,
   by decide,
   ((C7_spacing_and_precision [⟨0, 0, 0, 0, 0, true⟩, ⟨1/1000, 1/1000, 0, 0, 0, true⟩]
      (by decide)).2.2.2 (by decide)).1.trans (by decide) |>.symm.trans (by decide) |>.symm⟩

/-! ## Claim C8: the response is independent of minDistanceKm -/

/-- C8: two requests over the same cells and the same `n` that differ only
in `minDistanceKm` receive identical rank lists: the parameter is stored by
`__init__` but never read by the selection or clustering logic. -/
theorem C8_minDistanceKm_independent (cells : List Cell) (n : ℤ) (d1 d2 : ℚ) :
    (handle_find_optimal_locations cells n d1).locations =
      (handle_find_optimal_locations cells n d2).locations := by
  unfold handle_find_optimal_locations
  split_ifs <;> rfl

/-! ## Claim C6: failure modes of the route handler -/

unseal Rat.add Rat.mul Rat.inv Rat.sub Rat.ofScientific in
/-- C6 (counterexample): a request with an empty cell list does fail before
any rank is computed (status 400, message `"No cells provided"`), but its
JSON body carries no `success` key at all — `success: false` is returned
only by the exception path — so the claim that each of the three failures
reports `success: false` is wrong for this input. -/
theorem C6_counterexample :
    (handle_find_optimal_locations [] 3 (1/2)).status = 400 ∧
    (handle_find_optimal_locations [] 3 (1/2)).error = some "No cells provided" ∧
    (handle_find_optimal_locations [] 3 (1/2)).success ≠ some false := by
  refine ⟨rfl, rfl, by decide⟩

/-- C6 (amended): empty `cells`, `n ≤ 0`, and an all-outside-polygon cell
list each abort the request before any rank is computed, with three
pairwise-distinct error messages and no rank list in the response; the
no-eligible-cells failure carries `success: false` (status 500, via the
exception handler), while the empty-cells and `n ≤ 0` failures return only
the error message with status 400 and no `success` key.  A response carries
no rank list exactly when one of the three conditions holds. -/
theorem C6_failure_modes (cells : List Cell) (n : ℤ) (d : ℚ) :
    (cells = [] →
      handle_find_optimal_locations cells n d =
        ⟨400, none, some "No cells provided", none, none, none⟩) ∧
    (cells ≠ [] → n ≤ 0 →
      handle_find_optimal_locations cells n d =
        ⟨400, none, some "Number of stations must be > 0", none, none, none⟩) ∧
    (cells ≠ [] → 0 < n → polyCellsOf cells = [] →
      handle_find_optimal_locations cells n d =
        ⟨500, some false, some "No cells found inside polygon", none, none, none⟩) ∧
    ((handle_find_optimal_locations cells n d).locations = none ↔
      cells = [] ∨ n ≤ 0 ∨ polyCellsOf cells = []) ∧
    ("No cells provided" ≠ "Number of stations must be > 0" ∧
      "Number of stations must be > 0" ≠ "No cells found inside polygon" ∧
      "No cells provided" ≠ "No cells found inside polygon") := by
  unfold handle_find_optimal_locations polyCellsOf
  split_ifs with h1 h2 h3
  · simp [h1]
  · simp [h1, h2]
  · simp [h1, h2, h3]
  · simp [h1, h2, h3]

/-- C6 (witness): the amended theorem applied at one concrete input per
failure mode. -/
theorem C6_failure_modes_witness :
    handle_find_optimal_locations [] 3 (1/2) =
      ⟨400, none, some "No cells provided", none, none, none⟩ ∧
    handle_find_optimal_locations [defaultCell] (-1) (1/2) =
      ⟨400, none, some "Number of stations must be > 0", none, none, none⟩ ∧
    handle_find_optimal_locations [defaultCell] 3 (1/2) =
      ⟨500, some false, some "No cells found inside polygon", none, none, none⟩ :=
  ⟨(C6_failure_modes [] 3 (1/2)).1 rfl,
   (C6_failure_modes [defaultCell] (-1) (1/2)).2.1 (by simp) (by decide),
   (C6_failure_modes [defaultCell] 3 (1/2)).2.2.1 (by simp) (by decide) (by rfl)⟩

/-! ## Lemmas about min-cost, zones, and used-key sets -/

theorem minCostOf_foldl_le (cs : List Cell) (a : ℚ) :
    cs.foldl (fun acc x => min acc x.cost) a ≤ a ∧
      ∀ c ∈ cs, cs.foldl (fun acc x => min acc x.cost) a ≤ c.cost := by
  induction cs generalizing a with
  | nil => simp
  | cons c cs ih =>
    obtain ⟨h1, h2⟩ := ih (min a c.cost)
    refine ⟨le_trans h1 (min_le_left _ _), ?_⟩
    intro x hx
    rcases List.mem_cons.mp hx with h | h
    · subst h; exact le_trans h1 (min_le_right _ _)
    · exact h2 x h

theorem minCostOf_foldl_mem (cs : List Cell) (a : ℚ) :
    cs.foldl (fun acc x => min acc x.cost) a = a ∨
      ∃ c ∈ cs, cs.foldl (fun acc x => min acc x.cost) a = c.cost := by
  induction cs generalizing a with
  | nil => simp
  | cons c cs ih =>
    rcases ih (min a c.cost) with h | ⟨x, hx, hval⟩
    · simp only [List.foldl_cons]
      rcases min_cases a c.cost with ⟨heq, _⟩ | ⟨heq, _⟩
      · left; rw [h, heq]
      · right; exact ⟨c, List.mem_cons_self c cs, by rw [h, heq]⟩
    · right; exact ⟨x, List.mem_cons_of_mem _ hx, hval⟩

theorem minCostOf_le (l : List Cell) : ∀ c ∈ l, minCostOf l ≤ c.cost := by
  intro c hc
  cases l with
  | nil => cases hc
  | cons a cs =>
    rcases List.mem_cons.mp hc with h | h
    · subst h
      exact (minCostOf_foldl_le cs c.cost).1
    · exact (minCostOf_foldl_le cs a.cost).2 c h

theorem minCostOf_mem (l : List Cell) (h : l ≠ []) : ∃ c ∈ l, c.cost = minCostOf l := by
  cases l with
  | nil => exact absurd rfl h
  | cons a cs =>
    rcases minCostOf_foldl_mem cs a.cost with heq | ⟨c, hc, hval⟩
    · exact ⟨a, List.mem_cons_self a cs, heq.symm⟩
    · exact ⟨c, List.mem_cons_of_mem _ hc, hval.symm⟩

theorem zoneIdx_mono {x y : ℚ} (h : x ≤ y) : zoneIdx (zoneOfCost x) ≤ zoneIdx (zoneOfCost y) := by
  unfold zoneOfCost
  split_ifs <;> simp [zoneIdx] <;> linarith

theorem cost_lt_of_zoneIdx_lt {x y : ℚ}
    (h : zoneIdx (zoneOfCost x) < zoneIdx (zoneOfCost y)) : x < y := by
  unfold zoneOfCost at h
  unfold GREEN_THRESHOLD YELLOW_THRESHOLD at h
  split_ifs at h <;> simp [zoneIdx] at h <;> linarith

theorem mem_insertKeys (l : List Cell) (u : Finset (ℚ × ℚ)) (k : ℚ × ℚ) :
    k ∈ insertKeys l u ↔ k ∈ u ∨ ∃ c ∈ l, cellKey c = k := by
  induction l generalizing u with
  | nil => simp [insertKeys]
  | cons c cs ih =>
    simp only [insertKeys, List.foldl_cons] at *
    rw [ih]
    simp only [Finset.mem_insert, List.mem_cons]
    aesop

theorem subset_insertKeys (l : List Cell) (u : Finset (ℚ × ℚ)) : u ⊆ insertKeys l u :=
  fun k hk => (mem_insertKeys l u k).mpr (Or.inl hk)

theorem insertKeys_eq_foldl (l : List Cell) (u : Finset (ℚ × ℚ)) :
    l.foldl (fun u c => insert (cellKey c) u) u = insertKeys l u := rfl

theorem zoneOfCost_green_iff (x : ℚ) : zoneOfCost x = .green ↔ x ≤ GREEN_THRESHOLD := by
  unfold zoneOfCost
  split_ifs with h1 h2
  · simp [h1]
  · simp [h1]
  · simp [h1]

theorem zoneOfCost_yellow_iff (x : ℚ) :
    zoneOfCost x = .yellow ↔ GREEN_THRESHOLD < x ∧ x ≤ YELLOW_THRESHOLD := by
  unfold zoneOfCost GREEN_THRESHOLD YELLOW_THRESHOLD
  split_ifs with h1 h2
  · constructor
    · intro h; cases h
    · rintro ⟨ha, _⟩; linarith
  · simp only [true_iff]
    exact ⟨by linarith, h2⟩
  · constructor
    · intro h; cases h
    · rintro ⟨_, hb⟩; exact absurd hb h2

theorem zoneOfCost_red_iff (x : ℚ) : zoneOfCost x = .red ↔ YELLOW_THRESHOLD < x := by
  unfold zoneOfCost GREEN_THRESHOLD YELLOW_THRESHOLD
  split_ifs with h1 h2
  · constructor
    · intro h; cases h
    · intro h; linarith
  · constructor
    · intro h; cases h
    · intro h; exact absurd h2 (by linarith)
  · simp only [true_iff]
    linarith

theorem make_green_cells (cells : List Cell) (n : ℕ) (d : ℚ) :
    (OptimalLocationFinder.make cells n d).green_cells = zonePool (polyCellsOf cells) .green := by
  unfold OptimalLocationFinder.make zonePool polyCellsOf
  simp only
  apply List.filter_congr
  intro c _
  simp [zoneOfCost_green_iff]

theorem make_yellow_cells (cells : List Cell) (n : ℕ) (d : ℚ) :
    (OptimalLocationFinder.make cells n d).yellow_cells = zonePool (polyCellsOf cells) .yellow := by
  unfold OptimalLocationFinder.make zonePool polyCellsOf
  simp only
  apply List.filter_congr
  intro c _
  simp [zoneOfCost_yellow_iff]

theorem make_red_cells (cells : List Cell) (n : ℕ) (d : ℚ) :
    (OptimalLocationFinder.make cells n d).red_cells = zonePool (polyCellsOf cells) .red := by
  unfold OptimalLocationFinder.make zonePool polyCellsOf
  simp only
  apply List.filter_congr
  intro c _
  simp [zoneOfCost_red_iff]

theorem specExtract_nil_of_avail_nil (poly : List Cell) (k base : ℕ) (used : Finset (ℚ × ℚ))
    (h : poly.filter (fun c => decide (cellKey c ∉ used)) = []) :
    specExtract poly k base used = [] := by
  cases k with
  | zero => rfl
  | succ k =>
    simp only [specExtract]
    rw [if_pos h]

theorem extractZoneRanks_spec (n : ℕ) (poly : List Cell) (z : Zone) :
    ∀ (fuel : ℕ) (used : Finset (ℚ × ℚ)) (ranks : List CostRank),
      n - ranks.length ≤ fuel →
      (∀ c ∈ poly, cellKey c ∉ used → zoneIdx z ≤ zoneIdx (zoneOfCost c.cost)) →
      ∀ out, out = extractZoneRanks n (zonePool poly z) z fuel used ranks →
        out.1 ++ specExtract poly (n - out.1.length) out.1.length out.2 =
            ranks ++ specExtract poly (n - ranks.length) ranks.length used ∧
          used ⊆ out.2 ∧
          (n ≤ out.1.length ∨ ∀ c ∈ poly, zoneOfCost c.cost = z → cellKey c ∈ out.2) := by
  intro fuel
  induction fuel with
  | zero =>
    intro used ranks hfuel hprev out hout
    subst hout
    simp only [extractZoneRanks]
    exact ⟨trivial, Finset.Subset.refl _, Or.inl (by omega)⟩
  | succ fuel ih =>
    intro used ranks hfuel hprev out hout
    by_cases hcond :
        (zonePool poly z).filter (fun c => decide (cellKey c ∉ used)) ≠ [] ∧ ranks.length < n
    · obtain ⟨hza, hlen⟩ := hcond
      set za := (zonePool poly z).filter (fun c => decide (cellKey c ∉ used)) with hza_def
      set m := minCostOf za with hm_def
      set sel := za.filter (fun c => decide (c.cost = m)) with hsel_def
      set avail := poly.filter (fun c => decide (cellKey c ∉ used)) with havail_def
      have hza_mem : ∀ c, c ∈ za ↔ (c ∈ poly ∧ zoneOfCost c.cost = z ∧ cellKey c ∉ used) := by
        intro c
        rw [hza_def]
        unfold zonePool
        simp only [List.mem_filter, decide_eq_true_eq]
        tauto
      have havail_mem : ∀ c, c ∈ avail ↔ (c ∈ poly ∧ cellKey c ∉ used) := by
        intro c
        rw [havail_def]
        simp [List.mem_filter]
      obtain ⟨cz, hcz_mem, hcz_cost⟩ := minCostOf_mem za hza
      rw [← hm_def] at hcz_cost
      have hz_zone : zoneOfCost m = z := by
        rw [← hcz_cost]
        exact ((hza_mem cz).mp hcz_mem).2.1
      have hcz_avail : cz ∈ avail := by
        rw [havail_mem]
        exact ⟨((hza_mem cz).mp hcz_mem).1, ((hza_mem cz).mp hcz_mem).2.2⟩
      have havail_ne : avail ≠ [] := List.ne_nil_of_mem hcz_avail
      have hmin_eq : minCostOf avail = m := by
        apply le_antisymm
        · rw [← hcz_cost]
          exact minCostOf_le avail cz hcz_avail
        · obtain ⟨c0, hc0_mem, hc0_cost⟩ := minCostOf_mem avail havail_ne
          rw [← hc0_cost]
          by_cases hc0z : zoneOfCost c0.cost = z
          · have : c0 ∈ za := (hza_mem c0).mpr
              ⟨((havail_mem c0).mp hc0_mem).1, hc0z, ((havail_mem c0).mp hc0_mem).2⟩
            exact minCostOf_le za c0 this
          · have hle : zoneIdx z ≤ zoneIdx (zoneOfCost c0.cost) :=
              hprev c0 ((havail_mem c0).mp hc0_mem).1 ((havail_mem c0).mp hc0_mem).2
            have hlt : zoneIdx z < zoneIdx (zoneOfCost c0.cost) := by
              rcases lt_or_eq_of_le hle with h | h
              · exact h
              · exfalso
                apply hc0z
                cases z <;> cases hz0 : zoneOfCost c0.cost <;>
                  simp [zoneIdx, hz0] at h ⊢ <;> omega
            have : m < c0.cost := by
              apply cost_lt_of_zoneIdx_lt
              rw [hz_zone]
              exact hlt
            exact le_of_lt this
      have hsel_eq : avail.filter (fun c => decide (c.cost = m)) = sel := by
        rw [hsel_def, hza_def, havail_def]
        unfold zonePool
        rw [List.filter_filter, List.filter_filter, List.filter_filter]
        apply List.filter_congr
        intro c _
        by_cases hc : c.cost = m
        · have : zoneOfCost c.cost = z := by rw [hc]; exact hz_zone
          simp [hc, this, hz_zone]
        · simp [hc]
      have hspec : specExtract poly (n - ranks.length) ranks.length used =
          mkCostRank (ranks.length + 1) m (zoneOfCost m) sel ::
            specExtract poly (n - ranks.length - 1) (ranks.length + 1) (insertKeys sel used) := by
        have hk : n - ranks.length = (n - ranks.length - 1) + 1 := by omega
        rw [hk]
        simp only [specExtract]
        rw [if_neg havail_ne]
        rw [hmin_eq, hsel_eq, insertKeys_eq_foldl]
        simp only [Nat.add_sub_cancel]
      have hstep : extractZoneRanks n (zonePool poly z) z (fuel + 1) used ranks =
          extractZoneRanks n (zonePool poly z) z fuel (insertKeys sel used)
            (ranks ++ [mkCostRank (ranks.length + 1) m z sel]) := by
        simp only [extractZoneRanks]
        rw [if_pos ⟨hza, hlen⟩]
        rw [insertKeys_eq_foldl]
      have hfuel1 : n - (ranks ++ [mkCostRank (ranks.length + 1) m z sel]).length ≤ fuel := by
        simp only [List.length_append, List.length_cons, List.length_nil]
        omega
      have hprev1 : ∀ c ∈ poly, cellKey c ∉ insertKeys sel used →
          zoneIdx z ≤ zoneIdx (zoneOfCost c.cost) := by
        intro c hc hck
        exact hprev c hc (fun h => hck (subset_insertKeys sel used h))
      obtain ⟨hE, hsub, hP⟩ := ih (insertKeys sel used)
        (ranks ++ [mkCostRank (ranks.length + 1) m z sel]) hfuel1 hprev1 _ rfl
      subst hout
      rw [hstep]
      refine ⟨?_, ?_, hP⟩
      · rw [hE, hspec, List.append_cons, hz_zone]
        simp [Nat.sub_sub]
      · exact fun k hk => hsub (subset_insertKeys sel used hk)
    · subst hout
      have hres : extractZoneRanks n (zonePool poly z) z (fuel + 1) used ranks = (ranks, used) := by
        simp only [extractZoneRanks]
        rw [if_neg hcond]
      rw [hres]
      refine ⟨rfl, Finset.Subset.refl _, ?_⟩
      rcases Decidable.not_and_iff_or_not.mp hcond with h | h
      · right
        intro c hc hzc
        by_contra hk
        have : c ∈ (zonePool poly z).filter (fun c => decide (cellKey c ∉ used)) := by
          unfold zonePool
          simp [List.mem_filter, hc, hzc, hk]
        rw [not_ne_iff.mp h] at this
        cases this
      · left
        show n ≤ ranks.length
        omega

theorem foldZones_stop (n : ℕ) (zps : List (Zone × List Cell))
    (acc : List CostRank × Finset (ℚ × ℚ)) (h : n ≤ acc.1.length) :
    zps.foldl
      (fun acc zp =>
        if n ≤ acc.1.length then acc
        else if zp.2 = [] then acc
        else extractZoneRanks n zp.2 zp.1 n acc.2 acc.1) acc = acc := by
  induction zps with
  | nil => rfl
  | cons zp zps ih =>
    simp only [List.foldl_cons, if_pos h]
    exact ih

theorem foldZones_spec (n : ℕ) (poly : List Cell) :
    ∀ (zs : List Zone) (used : Finset (ℚ × ℚ)) (ranks : List CostRank),
      (∀ c ∈ poly, cellKey c ∉ used → zoneOfCost c.cost ∈ zs) →
      zs.Pairwise (fun a b => zoneIdx a ≤ zoneIdx b) →
      ((zs.map (fun z => (z, zonePool poly z))).foldl
          (fun acc zp =>
            if n ≤ acc.1.length then acc
            else if zp.2 = [] then acc
            else extractZoneRanks n zp.2 zp.1 n acc.2 acc.1) (ranks, used)).1 =
        ranks ++ specExtract poly (n - ranks.length) ranks.length used := by
  intro zs
  induction zs with
  | nil =>
    intro used ranks hcov _
    have hnil : poly.filter (fun c => decide (cellKey c ∉ used)) = [] := by
      rw [List.filter_eq_nil_iff]
      intro c hc
      simp only [decide_eq_true_eq]
      intro hk
      cases hcov c hc hk
    simp only [List.map_nil, List.foldl_nil]
    rw [specExtract_nil_of_avail_nil poly _ _ _ hnil]
    simp
  | cons z rest ih =>
    intro used ranks hcov hsort
    simp only [List.map_cons, List.foldl_cons]
    by_cases hn : n ≤ ranks.length
    · rw [if_pos (show n ≤ ((ranks, used) : List CostRank × Finset (ℚ × ℚ)).1.length from hn)]
      rw [foldZones_stop n _ _ hn]
      have h0 : n - ranks.length = 0 := by omega
      rw [h0]
      simp [specExtract]
    · rw [if_neg (show ¬ n ≤ ((ranks, used) : List CostRank × Finset (ℚ × ℚ)).1.length from hn)]
      by_cases hz : zonePool poly z = []
      · rw [if_pos hz]
        apply ih
        · intro c hc hk
          rcases List.mem_cons.mp (hcov c hc hk) with h | h
          · exfalso
            have : c ∈ zonePool poly z := by
              unfold zonePool
              rw [List.mem_filter]
              exact ⟨hc, by simp [h]⟩
            rw [hz] at this
            cases this
          · exact h
        · exact hsort.of_cons
      · rw [if_neg hz]
        have hprev : ∀ c ∈ poly, cellKey c ∉ used → zoneIdx z ≤ zoneIdx (zoneOfCost c.cost) := by
          intro c hc hk
          rcases List.mem_cons.mp (hcov c hc hk) with h | h
          · simp only [h, le_refl]
          · exact (List.pairwise_cons.mp hsort).1 _ h
        obtain ⟨hE, hsub, hP⟩ :=
          extractZoneRanks_spec n poly z n used ranks (Nat.sub_le _ _) hprev _ rfl
        rcases hP with hn' | hzdone
        · rw [foldZones_stop n _ _ hn']
          have h0 : n - (extractZoneRanks n (zonePool poly z) z n used ranks).1.length = 0 := by
            omega
          rw [h0] at hE
          simpa [specExtract] using hE
        · have hcov2 : ∀ c ∈ poly,
              cellKey c ∉ (extractZoneRanks n (zonePool poly z) z n used ranks).2 →
              zoneOfCost c.cost ∈ rest := by
            intro c hc hk
            have hku : cellKey c ∉ used := fun h => hk (hsub h)
            rcases List.mem_cons.mp (hcov c hc hku) with h | h
            · exact absurd (hzdone c hc h) hk
            · exact h
          have := ih (extractZoneRanks n (zonePool poly z) z n used ranks).2
            (extractZoneRanks n (zonePool poly z) z n used ranks).1 hcov2 hsort.of_cons
          rw [this, hE]

theorem make_n_stations (cells : List Cell) (n : ℕ) (d : ℚ) :
    (OptimalLocationFinder.make cells n d).n_stations = n := rfl

theorem zoneOfCost_mem_all (x : ℚ) : zoneOfCost x ∈ [Zone.green, Zone.yellow, Zone.red] := by
  cases h : zoneOfCost x <;> simp

/-- `find_optimal_locations` is extensionally the zone-free reference
recursion: repeatedly extract the minimum-cost available eligible cells. -/
theorem find_optimal_locations_eq_specExtract (cells : List Cell) (n : ℕ) (d : ℚ) :
    (OptimalLocationFinder.make cells n d).find_optimal_locations =
      specExtract (polyCellsOf cells) n 0 ∅ := by
  unfold OptimalLocationFinder.find_optimal_locations
  rw [make_green_cells, make_yellow_cells, make_red_cells, make_n_stations]
  have hcov : ∀ c ∈ polyCellsOf cells, cellKey c ∉ (∅ : Finset (ℚ × ℚ)) →
      zoneOfCost c.cost ∈ [Zone.green, Zone.yellow, Zone.red] :=
    fun c _ _ => zoneOfCost_mem_all c.cost
  have hsort : ([Zone.green, Zone.yellow, Zone.red]).Pairwise
      (fun a b => zoneIdx a ≤ zoneIdx b) := by decide
  have := foldZones_spec n (polyCellsOf cells) [Zone.green, Zone.yellow, Zone.red]
    ∅ [] hcov hsort
  simpa using this

/-! ## Membership lemmas for the clusterer output -/

theorem mapLookup_mem : ∀ (m : List ((ℚ × ℚ) × Cell)) (k : ℚ × ℚ) (c : Cell),
    mapLookup m k = some c → (k, c) ∈ m := by
  intro m
  induction m with
  | nil => intro k c h; cases h
  | cons kc m ih =>
    intro k c h
    rw [mapLookup] at h
    split_ifs at h with hk
    · cases h
      subst hk
      exact List.mem_cons_self _ _
    · exact List.mem_cons_of_mem _ (ih _ _ h)

theorem buildCellMap_eq (p : ℤ) (cells : List Cell) :
    buildCellMap p cells = (cells.map (fun c => (cellGridKey p c, c))).reverse := by
  unfold buildCellMap
  have h : ∀ (l : List Cell) (init : List ((ℚ × ℚ) × Cell)),
      l.foldl (fun m c => (cellGridKey p c, c) :: m) init =
        (l.map (fun c => (cellGridKey p c, c))).reverse ++ init := by
    intro l
    induction l with
    | nil => intro init; simp
    | cons c l ih =>
      intro init
      simp only [List.foldl_cons, List.map_cons, List.reverse_cons, List.append_assoc]
      rw [ih]
      simp
  rw [h cells []]
  simp

theorem buildCellMap_mem (p : ℤ) (cells : List Cell) :
    ∀ kc ∈ buildCellMap p cells, kc.2 ∈ cells ∧ kc.1 = cellGridKey p kc.2 := by
  intro kc hkc
  rw [buildCellMap_eq] at hkc
  rw [List.mem_reverse, List.mem_map] at hkc
  obtain ⟨c, hc, rfl⟩ := hkc
  exact ⟨hc, rfl⟩

theorem mapLookup_cells (p : ℤ) (cells : List Cell) (k : ℚ × ℚ) (c : Cell)
    (h : mapLookup (buildCellMap p cells) k = some c) :
    c ∈ cells ∧ k = cellGridKey p c := by
  have := buildCellMap_mem p cells (k, c) (mapLookup_mem _ _ _ h)
  exact this

theorem floodLoop_region_mem (m : List ((ℚ × ℚ) × Cell)) (offs : List (ℚ × ℚ)) (p : ℤ) :
    ∀ (fuel : ℕ) (visited stack : List (ℚ × ℚ)) (region : List Cell),
      ∀ c ∈ (floodLoop m offs p fuel visited stack region).1,
        c ∈ region ∨ ∃ k, mapLookup m k = some c := by
  intro fuel
  induction fuel with
  | zero => intro visited stack region c hc; exact Or.inl hc
  | succ fuel ih =>
    intro visited stack region c hc
    match stack with
    | [] => exact Or.inl hc
    | k :: stack =>
      rw [floodLoop] at hc
      split_ifs at hc with hv
      · exact ih _ _ _ c hc
      · revert hc
        cases hlook : mapLookup m k with
        | none => intro hc; exact ih _ _ _ c hc
        | some c0 =>
          intro hc
          rcases ih _ _ _ c hc with hmem | hex
          · rcases List.mem_append.mp hmem with h | h
            · exact Or.inl h
            · rcases List.mem_singleton.mp h with rfl
              exact Or.inr ⟨k, hlook⟩
          · exact Or.inr hex

theorem floodAll_regions_mem (m : List ((ℚ × ℚ) × Cell)) (offs : List (ℚ × ℚ)) (p : ℤ)
    (fuel : ℕ) :
    ∀ (cs : List Cell) (visited : List (ℚ × ℚ)) (regions : List (List Cell)),
      (∀ r ∈ regions, ∀ c ∈ r, ∃ k, mapLookup m k = some c) →
      ∀ r ∈ (floodAll m offs p fuel cs visited regions).1, ∀ c ∈ r,
        ∃ k, mapLookup m k = some c := by
  intro cs
  induction cs with
  | nil => intro visited regions hreg r hr c hc; exact hreg r hr c hc
  | cons c0 cs ih =>
    intro visited regions hreg r hr c hc
    rw [floodAll] at hr
    split_ifs at hr with hv
    · exact ih _ _ hreg r hr c hc
    · refine ih _ _ ?_ r hr c hc
      intro r' hr' c' hc'
      split_ifs at hr' with hemp
      · exact hreg r' hr' c' hc'
      · rcases List.mem_append.mp hr' with h | h
        · exact hreg r' h c' hc'
        · rcases List.mem_singleton.mp h with rfl
          rcases floodLoop_region_mem m offs p fuel visited
            [cellGridKey p c0] [] c' hc' with hmem | hex
          · cases hmem
          · exact hex

theorem find_connected_regions_mem (cells : List Cell) :
    ∀ r ∈ find_connected_regions cells, ∀ c ∈ r, c ∈ cells := by
  intro r hr c hc
  unfold find_connected_regions at hr
  split_ifs at hr with hnil
  · cases hr
  · obtain ⟨k, hk⟩ := floodAll_regions_mem _ _ _ _ cells [] []
      (by intro r' hr' c' hc'; cases hr') r hr c hc
    exact (mapLookup_cells _ _ _ _ hk).1

/-! ## Structure of the reference extraction -/

theorem specExtract_eq_cons (poly : List Cell) (k base : ℕ) (used : Finset (ℚ × ℚ))
    (h : poly.filter (fun c => decide (cellKey c ∉ used)) ≠ []) :
    specExtract poly (k + 1) base used =
      mkCostRank (base + 1) (minCostOf (poly.filter (fun c => decide (cellKey c ∉ used))))
          (zoneOfCost (minCostOf (poly.filter (fun c => decide (cellKey c ∉ used)))))
          ((poly.filter (fun c => decide (cellKey c ∉ used))).filter
            (fun c => decide (c.cost = minCostOf (poly.filter (fun c => decide (cellKey c ∉ used)))))) ::
        specExtract poly k (base + 1)
          (insertKeys
            ((poly.filter (fun c => decide (cellKey c ∉ used))).filter
              (fun c => decide (c.cost = minCostOf (poly.filter (fun c => decide (cellKey c ∉ used))))))
            used) := by
  simp only [specExtract]
  rw [if_neg h, insertKeys_eq_foldl]

theorem insertKeys_filter_eq_consumed (poly : List Cell) (used : Finset (ℚ × ℚ)) (m : ℚ) :
    insertKeys
        ((poly.filter (fun c => decide (cellKey c ∉ used))).filter
          (fun c => decide (c.cost = m))) used =
      used ∪ consumedKeys poly m used := by
  apply Finset.ext
  intro k
  rw [mem_insertKeys, Finset.mem_union]
  unfold consumedKeys
  simp only [List.mem_filter, List.mem_toFinset, List.mem_map, decide_eq_true_eq,
    Bool.and_eq_true]
  constructor
  · rintro (h | ⟨c, ⟨⟨hcp, hcu⟩, hcm⟩, hk⟩)
    · exact Or.inl h
    · exact Or.inr ⟨c, ⟨hcp, hcm, hcu⟩, hk⟩
  · rintro (h | ⟨c, ⟨hcp, hcm, hcu⟩, hk⟩)
    · exact Or.inl h
    · exact Or.inr ⟨c, ⟨⟨hcp, hcu⟩, hcm⟩, hk⟩

theorem usedFrom_cons (poly : List Cell) (h : CostRank) (t : List CostRank)
    (start : Finset (ℚ × ℚ)) : ∀ i,
    usedFrom poly (h :: t) start (i + 1) =
      usedFrom poly t (start ∪ consumedKeys poly h.cost start) i := by
  intro i
  induction i with
  | zero => simp [usedFrom, rankAt]
  | succ i ih =>
    show usedFrom poly (h :: t) start (i + 1) ∪ _ = _
    rw [ih]
    have hr : rankAt (h :: t) (i + 1) = rankAt t i := by
      unfold rankAt
      simp [List.getD_cons_succ]
    rw [hr]
    rfl

theorem mkSubLocations_cells (regions : List (List Cell)) (sub : SubLocation)
    (h : sub ∈ mkSubLocations regions) :
    ∃ r ∈ regions, sub.cells = r.map (fun c => ⟨c.centerLat, c.centerLng, c.cost⟩) := by
  unfold mkSubLocations at h
  rw [List.mem_map] at h
  obtain ⟨⟨i, r⟩, hir, rfl⟩ := h
  refine ⟨r, ?_, rfl⟩
  rw [List.mk_mem_enum_iff_getElem?] at hir
  exact List.getElem?_mem hir

theorem mkCostRank_cells_cost (rankNum : ℕ) (m : ℚ) (z : Zone) (sel : List Cell)
    (hsel : ∀ c ∈ sel, c.cost = m) :
    ∀ sub ∈ (mkCostRank rankNum m z sel).subLocations, ∀ oc ∈ sub.cells, oc.cost = m := by
  intro sub hsub oc hoc
  have hsubs : (mkCostRank rankNum m z sel).subLocations =
      mkSubLocations (find_connected_regions sel) := rfl
  rw [hsubs] at hsub
  obtain ⟨r, hr, hcells⟩ := mkSubLocations_cells _ _ hsub
  rw [hcells, List.mem_map] at hoc
  obtain ⟨c, hc, rfl⟩ := hoc
  exact hsel c (find_connected_regions_mem sel r hr c hc)

theorem specExtract_rank_struct (poly : List Cell) :
    ∀ (k base : ℕ) (used : Finset (ℚ × ℚ)) (i : ℕ),
      i < (specExtract poly k base used).length →
      (rankAt (specExtract poly k base used) i).costRank = base + i + 1 ∧
      (rankAt (specExtract poly k base used) i).zone =
        zoneOfCost (rankAt (specExtract poly k base used) i).cost ∧
      (∀ sub ∈ (rankAt (specExtract poly k base used) i).subLocations,
        ∀ oc ∈ sub.cells, oc.cost = (rankAt (specExtract poly k base used) i).cost) := by
  intro k
  induction k with
  | zero =>
    intro base used i h
    simp [specExtract] at h
  | succ k ih =>
    intro base used i h
    by_cases ha : poly.filter (fun c => decide (cellKey c ∉ used)) = []
    · rw [specExtract_nil_of_avail_nil poly (k + 1) base used ha] at h
      simp at h
    · set used1 := insertKeys
        ((poly.filter (fun c => decide (cellKey c ∉ used))).filter
          (fun c => decide (c.cost = minCostOf (poly.filter (fun c => decide (cellKey c ∉ used))))))
        used with hused1
      rw [specExtract_eq_cons poly k base used ha] at h ⊢
      cases i with
      | zero =>
        refine ⟨rfl, rfl, ?_⟩
        apply mkCostRank_cells_cost
        intro c hc
        rw [List.mem_filter] at hc
        simpa using hc.2
      | succ i =>
        have hr : ∀ (hd : CostRank) (t : List CostRank), rankAt (hd :: t) (i + 1) = rankAt t i := by
          intro hd t
          unfold rankAt
          simp [List.getD_cons_succ]
        rw [hr]
        have hlen : i < (specExtract poly k (base + 1) used1).length := by
          have h2 := h
          simp only [List.length_cons] at h2
          rw [← hused1] at h2
          omega
        obtain ⟨h1, h2, h3⟩ := ih (base + 1) used1 i hlen
        exact ⟨by rw [h1]; omega, h2, h3⟩

theorem rankAt_cons_zero (hd : CostRank) (t : List CostRank) : rankAt (hd :: t) 0 = hd := rfl

theorem rankAt_cons_succ (hd : CostRank) (t : List CostRank) (i : ℕ) :
    rankAt (hd :: t) (i + 1) = rankAt t i := by
  unfold rankAt
  simp [List.getD_cons_succ]

theorem specExtract_rank_min (poly : List Cell) :
    ∀ (k base : ℕ) (used : Finset (ℚ × ℚ)) (i : ℕ),
      i < (specExtract poly k base used).length →
      poly.filter
          (fun c => decide (cellKey c ∉ usedFrom poly (specExtract poly k base used) used i)) ≠ [] ∧
      (rankAt (specExtract poly k base used) i).cost =
        minCostOf (poly.filter
          (fun c => decide (cellKey c ∉ usedFrom poly (specExtract poly k base used) used i))) := by
  intro k
  induction k with
  | zero =>
    intro base used i h
    simp [specExtract] at h
  | succ k ih =>
    intro base used i h
    by_cases ha : poly.filter (fun c => decide (cellKey c ∉ used)) = []
    · rw [specExtract_nil_of_avail_nil poly (k + 1) base used ha] at h
      simp at h
    · rw [specExtract_eq_cons poly k base used ha] at h ⊢
      cases i with
      | zero =>
        refine ⟨ha, ?_⟩
        rw [rankAt_cons_zero]
        rfl
      | succ i =>
        rw [rankAt_cons_succ]
        rw [usedFrom_cons]
        have hhead : (mkCostRank (base + 1)
            (minCostOf (poly.filter (fun c => decide (cellKey c ∉ used))))
            (zoneOfCost (minCostOf (poly.filter (fun c => decide (cellKey c ∉ used)))))
            ((poly.filter (fun c => decide (cellKey c ∉ used))).filter
              (fun c => decide (c.cost =
                minCostOf (poly.filter (fun c => decide (cellKey c ∉ used))))))).cost =
            minCostOf (poly.filter (fun c => decide (cellKey c ∉ used))) := rfl
        rw [hhead]
        rw [← insertKeys_filter_eq_consumed poly used
          (minCostOf (poly.filter (fun c => decide (cellKey c ∉ used))))]
        have hlen : i < (specExtract poly k (base + 1)
            (insertKeys
              ((poly.filter (fun c => decide (cellKey c ∉ used))).filter
                (fun c => decide (c.cost =
                  minCostOf (poly.filter (fun c => decide (cellKey c ∉ used))))))
              used)).length := by
          have h2 := h
          simp only [List.length_cons] at h2
          omega
        exact ih (base + 1) _ i hlen

theorem specExtract_cost_lb (poly : List Cell) :
    ∀ (k base : ℕ) (used : Finset (ℚ × ℚ)) (b : ℚ),
      (∀ c ∈ poly, cellKey c ∉ used → b < c.cost) →
      ∀ r ∈ specExtract poly k base used, b < r.cost := by
  intro k
  induction k with
  | zero => intro base used b hb r hr; simp [specExtract] at hr
  | succ k ih =>
    intro base used b hb r hr
    by_cases ha : poly.filter (fun c => decide (cellKey c ∉ used)) = []
    · rw [specExtract_nil_of_avail_nil poly (k + 1) base used ha] at hr
      cases hr
    · rw [specExtract_eq_cons poly k base used ha] at hr
      rcases List.mem_cons.mp hr with rfl | hr
      · obtain ⟨c0, hc0, hc0c⟩ :=
          minCostOf_mem (poly.filter (fun c => decide (cellKey c ∉ used))) ha
        rw [List.mem_filter] at hc0
        have : b < c0.cost := hb c0 hc0.1 (by simpa using hc0.2)
        show b < minCostOf (poly.filter (fun c => decide (cellKey c ∉ used)))
        rw [← hc0c]
        exact this
      · refine ih (base + 1) _ b ?_ r hr
        intro c hc hk
        exact hb c hc (fun h => hk (subset_insertKeys _ _ h))

theorem specExtract_strictMono (poly : List Cell) :
    ∀ (k base : ℕ) (used : Finset (ℚ × ℚ)) (i j : ℕ),
      i < j → j < (specExtract poly k base used).length →
      (rankAt (specExtract poly k base used) i).cost <
        (rankAt (specExtract poly k base used) j).cost := by
  intro k
  induction k with
  | zero => intro base used i j hij hj; simp [specExtract] at hj
  | succ k ih =>
    intro base used i j hij hj
    by_cases ha : poly.filter (fun c => decide (cellKey c ∉ used)) = []
    · rw [specExtract_nil_of_avail_nil poly (k + 1) base used ha] at hj
      simp at hj
    · rw [specExtract_eq_cons poly k base used ha] at hj ⊢
      rcases j with _ | j
      · omega
      rcases i with _ | i
      · rw [rankAt_cons_zero, rankAt_cons_succ]
        have hmono : ∀ c ∈ poly,
            cellKey c ∉ insertKeys
              ((poly.filter (fun c => decide (cellKey c ∉ used))).filter
                (fun c => decide (c.cost =
                  minCostOf (poly.filter (fun c => decide (cellKey c ∉ used))))))
              used →
            minCostOf (poly.filter (fun c => decide (cellKey c ∉ used))) < c.cost := by
          intro c hc hk
          have hku : cellKey c ∉ used := fun h => hk (subset_insertKeys _ _ h)
          have hca : c ∈ poly.filter (fun c => decide (cellKey c ∉ used)) := by
            rw [List.mem_filter]
            exact ⟨hc, by simpa using hku⟩
          have hle := minCostOf_le _ c hca
          rcases lt_or_eq_of_le hle with h | h
          · exact h
          · exfalso
            apply hk
            rw [mem_insertKeys]
            refine Or.inr ⟨c, ?_, rfl⟩
            rw [List.mem_filter]
            exact ⟨hca, by simpa using h.symm⟩
        have hlen : j < (specExtract poly k (base + 1)
            (insertKeys
              ((poly.filter (fun c => decide (cellKey c ∉ used))).filter
                (fun c => decide (c.cost =
                  minCostOf (poly.filter (fun c => decide (cellKey c ∉ used))))))
              used)).length := by
          have h2 := hj
          simp only [List.length_cons] at h2
          omega
        have hmem : rankAt (specExtract poly k (base + 1)
            (insertKeys
              ((poly.filter (fun c => decide (cellKey c ∉ used))).filter
                (fun c => decide (c.cost =
                  minCostOf (poly.filter (fun c => decide (cellKey c ∉ used))))))
              used)) j ∈ specExtract poly k (base + 1)
            (insertKeys
              ((poly.filter (fun c => decide (cellKey c ∉ used))).filter
                (fun c => decide (c.cost =
                  minCostOf (poly.filter (fun c => decide (cellKey c ∉ used))))))
              used) := by
          unfold rankAt
          rw [List.getD_eq_getElem _ _ hlen]
          exact List.getElem_mem _
        have := specExtract_cost_lb poly k (base + 1) _ _ hmono _ hmem
        show (mkCostRank (base + 1) _ _ _).cost < _
        exact this
      · rw [rankAt_cons_succ, rankAt_cons_succ]
        have hlen : j < (specExtract poly k (base + 1)
            (insertKeys
              ((poly.filter (fun c => decide (cellKey c ∉ used))).filter
                (fun c => decide (c.cost =
                  minCostOf (poly.filter (fun c => decide (cellKey c ∉ used))))))
              used)).length := by
          have h2 := hj
          simp only [List.length_cons] at h2
          omega
        exact ih (base + 1) _ i j (by omega) hlen

theorem mem_distinctCosts (l : List Cell) (x : ℚ) :
    x ∈ distinctCosts l ↔ ∃ c ∈ l, c.cost = x := by
  unfold distinctCosts
  simp [List.mem_map]

theorem specExtract_length (poly : List Cell) (hkc : SameKeySameCost poly) :
    ∀ (k base : ℕ) (used : Finset (ℚ × ℚ)),
      (specExtract poly k base used).length =
        min k (distinctCosts (poly.filter (fun c => decide (cellKey c ∉ used)))).card := by
  intro k
  induction k with
  | zero => intro base used; simp [specExtract]
  | succ k ih =>
    intro base used
    by_cases ha : poly.filter (fun c => decide (cellKey c ∉ used)) = []
    · rw [specExtract_nil_of_avail_nil poly (k + 1) base used ha, ha]
      simp [distinctCosts]
    · rw [specExtract_eq_cons poly k base used ha]
      rw [List.length_cons, ih (base + 1) _]
      obtain ⟨c0, hc0, hc0c⟩ :=
        minCostOf_mem (poly.filter (fun c => decide (cellKey c ∉ used))) ha
      have hm_mem : minCostOf (poly.filter (fun c => decide (cellKey c ∉ used))) ∈
          distinctCosts (poly.filter (fun c => decide (cellKey c ∉ used))) :=
        (mem_distinctCosts _ _).mpr ⟨c0, hc0, hc0c⟩
      have herase : distinctCosts (poly.filter (fun c => decide (cellKey c ∉
            insertKeys
              ((poly.filter (fun c => decide (cellKey c ∉ used))).filter
                (fun c => decide (c.cost =
                  minCostOf (poly.filter (fun c => decide (cellKey c ∉ used))))))
              used))) =
          (distinctCosts (poly.filter (fun c => decide (cellKey c ∉ used)))).erase
            (minCostOf (poly.filter (fun c => decide (cellKey c ∉ used)))) := by
        rw [insertKeys_filter_eq_consumed]
        apply Finset.ext
        intro x
        rw [Finset.mem_erase, mem_distinctCosts, mem_distinctCosts]
        constructor
        · rintro ⟨c, hc, rfl⟩
          rw [List.mem_filter] at hc
          obtain ⟨hcp, hcu⟩ := hc
          rw [decide_eq_true_eq, Finset.mem_union, not_or] at hcu
          obtain ⟨hcu1, hcu2⟩ := hcu
          constructor
          · intro hcm
            apply hcu2
            unfold consumedKeys
            simp only [List.mem_toFinset, List.mem_map]
            refine ⟨c, ?_, rfl⟩
            rw [List.mem_filter]
            exact ⟨hcp, by simp [hcm, hcu1]⟩
          · exact ⟨c, by rw [List.mem_filter]; exact ⟨hcp, by simpa using hcu1⟩, rfl⟩
        · rintro ⟨hxm, c, hc, rfl⟩
          rw [List.mem_filter] at hc
          obtain ⟨hcp, hcu⟩ := hc
          rw [decide_eq_true_eq] at hcu
          refine ⟨c, ?_, rfl⟩
          rw [List.mem_filter, decide_eq_true_eq, Finset.mem_union, not_or]
          refine ⟨hcp, hcu, ?_⟩
          intro hmem
          unfold consumedKeys at hmem
          simp only [List.mem_toFinset, List.mem_map] at hmem
          obtain ⟨c', hc', hk'⟩ := hmem
          rw [List.mem_filter] at hc'
          obtain ⟨hc'p, hc'f⟩ := hc'
          rw [Bool.and_eq_true, decide_eq_true_eq, decide_eq_true_eq] at hc'f
          apply hxm
          rw [← hc'f.1]
          exact hkc c hcp c' hc'p hk'.symm
      rw [herase, Finset.card_erase_of_mem hm_mem]
      have hpos : 0 < (distinctCosts (poly.filter (fun c => decide (cellKey c ∉ used)))).card :=
        Finset.card_pos.mpr ⟨_, hm_mem⟩
      omega

theorem specExtract_length_le (poly : List Cell) :
    ∀ (k base : ℕ) (used : Finset (ℚ × ℚ)), (specExtract poly k base used).length ≤ k := by
  intro k
  induction k with
  | zero => intro base used; simp [specExtract]
  | succ k ih =>
    intro base used
    by_cases ha : poly.filter (fun c => decide (cellKey c ∉ used)) = []
    · rw [specExtract_nil_of_avail_nil poly (k + 1) base used ha]
      simp
    · rw [specExtract_eq_cons poly k base used ha, List.length_cons]
      exact Nat.succ_le_succ (ih (base + 1) _)

theorem filter_not_mem_empty (poly : List Cell) :
    poly.filter (fun c => decide (cellKey c ∉ (∅ : Finset (ℚ × ℚ)))) = poly := by
  apply List.filter_eq_self.mpr
  intro c _
  simp

theorem handle_locations_eq (cells : List Cell) (n : ℤ) (d : ℚ) (R : List CostRank)
    (hR : (handle_find_optimal_locations cells n d).locations = some R) :
    R = specExtract (polyCellsOf cells) n.toNat 0 ∅ := by
  unfold handle_find_optimal_locations at hR
  split_ifs at hR with h1 h2 h3 <;> cases hR
  all_goals exact find_optimal_locations_eq_specExtract cells n.toNat d

theorem handle_success_fields (cells : List Cell) (n : ℤ) (d : ℚ)
    (h1 : cells ≠ []) (h2 : 0 < n) (h3 : polyCellsOf cells ≠ []) :
    (handle_find_optimal_locations cells n d).success = some true ∧
    (handle_find_optimal_locations cells n d).locations =
      some (specExtract (polyCellsOf cells) n.toNat 0 ∅) ∧
    (handle_find_optimal_locations cells n d).locationsFound =
      some (specExtract (polyCellsOf cells) n.toNat 0 ∅).length := by
  unfold polyCellsOf at h3
  unfold handle_find_optimal_locations
  rw [if_neg h1, if_neg (by omega), if_neg h3]
  refine ⟨rfl, ?_, ?_⟩
  · exact congrArg some (find_optimal_locations_eq_specExtract cells n.toNat d)
  · exact congrArg some (congrArg List.length (find_optimal_locations_eq_specExtract cells n.toNat d))

/-! ## Claim C1: each rank's cost is the minimum over still-available cells -/

/-- C1: in every successful response, rank `i`'s cost is the minimum cost
among the eligible (in-polygon) cells whose `(centerLat, centerLng)` key was
not consumed (marked used) by an earlier rank, the set of such cells being
nonempty; and every serialized cell of the rank's sub-locations carries
exactly the rank's cost. -/
theorem C1_rank_cost_min (cells : List Cell) (n : ℤ) (d : ℚ) (R : List CostRank)
    (hR : (handle_find_optimal_locations cells n d).locations = some R) (i : ℕ)
    (hi : i < R.length) :
    availAt (polyCellsOf cells) R i ≠ [] ∧
    (rankAt R i).cost = minCostOf (availAt (polyCellsOf cells) R i) ∧
    (∀ sub ∈ (rankAt R i).subLocations, ∀ oc ∈ sub.cells, oc.cost = (rankAt R i).cost) := by
  have hReq := handle_locations_eq cells n d R hR
  subst hReq
  obtain ⟨hne, hmin⟩ := specExtract_rank_min (polyCellsOf cells) n.toNat 0 ∅ i hi
  obtain ⟨-, -, hcells⟩ := specExtract_rank_struct (polyCellsOf cells) n.toNat 0 ∅ i hi
  exact ⟨hne, hmin, hcells⟩

unseal Rat.add Rat.mul Rat.inv Rat.sub Rat.ofScientific in
/-- C1 (witness): the theorem applied to the sample request at rank 0. -/
theorem C1_rank_cost_min_witness :
    (handle_find_optimal_locations sampleCells 2 (1/2)).locations =
      some (specExtract (polyCellsOf sampleCells) 2 0 ∅) ∧
    (availAt (polyCellsOf sampleCells) (specExtract (polyCellsOf sampleCells) 2 0 ∅) 0 ≠ [] ∧
      (rankAt (specExtract (polyCellsOf sampleCells) 2 0 ∅) 0).cost =
        minCostOf (availAt (polyCellsOf sampleCells) (specExtract (polyCellsOf sampleCells) 2 0 ∅) 0) ∧
      (∀ sub ∈ (rankAt (specExtract (polyCellsOf sampleCells) 2 0 ∅) 0).subLocations,
        ∀ oc ∈ sub.cells, oc.cost = (rankAt (specExtract (polyCellsOf sampleCells) 2 0 ∅) 0).cost)) :=
  ⟨by decide, C1_rank_cost_min sampleCells 2 (1/2) _ (by decide) 0 (by decide)⟩

/-! ## Claim C4: rank numbering, per-zone cost order, zone priority order -/

/-- C4: in every successful response, the `costRank` fields are `1`-based
and strictly increasing in output order (`rank i` carries `i + 1`); within
any single zone costs are non-decreasing along the output order; and zone
priority is monotone across the whole list — no Green or Yellow rank ever
follows a Red rank. -/
theorem C4_rank_ordering (cells : List Cell) (n : ℤ) (d : ℚ) (R : List CostRank)
    (hR : (handle_find_optimal_locations cells n d).locations = some R) :
    (∀ i, i < R.length → (rankAt R i).costRank = i + 1) ∧
    (∀ i j, i ≤ j → j < R.length → (rankAt R i).zone = (rankAt R j).zone →
      (rankAt R i).cost ≤ (rankAt R j).cost) ∧
    (∀ i j, i < j → j < R.length →
      zoneIdx (rankAt R i).zone ≤ zoneIdx (rankAt R j).zone) := by
  have hReq := handle_locations_eq cells n d R hR
  subst hReq
  refine ⟨?_, ?_, ?_⟩
  · intro i hi
    have := (specExtract_rank_struct (polyCellsOf cells) n.toNat 0 ∅ i hi).1
    omega
  · intro i j hij hj _
    rcases eq_or_lt_of_le hij with rfl | hlt
    · exact le_refl _
    · exact le_of_lt (specExtract_strictMono (polyCellsOf cells) n.toNat 0 ∅ i j hlt hj)
  · intro i j hij hj
    have hi : i < (specExtract (polyCellsOf cells) n.toNat 0 ∅).length := by omega
    have hzi := (specExtract_rank_struct (polyCellsOf cells) n.toNat 0 ∅ i hi).2.1
    have hzj := (specExtract_rank_struct (polyCellsOf cells) n.toNat 0 ∅ j hj).2.1
    rw [hzi, hzj]
    exact zoneIdx_mono
      (le_of_lt (specExtract_strictMono (polyCellsOf cells) n.toNat 0 ∅ i j hij hj))

unseal Rat.add Rat.mul Rat.inv Rat.sub Rat.ofScientific in
/-- C4 (witness): the theorem applied to the sample request, checking the
two ranks it returns. -/
theorem C4_rank_ordering_witness :
    (handle_find_optimal_locations sampleCells 3 (1/2)).locations =
      some (specExtract (polyCellsOf sampleCells) 3 0 ∅) ∧
    (rankAt (specExtract (polyCellsOf sampleCells) 3 0 ∅) 0).costRank = 1 ∧
    zoneIdx (rankAt (specExtract (polyCellsOf sampleCells) 3 0 ∅) 0).zone ≤
      zoneIdx (rankAt (specExtract (polyCellsOf sampleCells) 3 0 ∅) 1).zone :=
  ⟨by decide,
    (C4_rank_ordering sampleCells 3 (1/2) _ (by decide)).1 0 (by decide),
    (C4_rank_ordering sampleCells 3 (1/2) _ (by decide)).2.2 0 1 (by decide) (by decide)⟩

/-! ## Claim C10: termination and per-iteration progress -/

/-- C10: the extraction procedure is a total function (it is defined by
structurally terminating recursions); every successful response has at most
`n` ranks — one inner iteration per produced rank — and every rank strictly
grows the used-key set (it consumes at least one previously unused cell
key).  The zone loop ranges over the fixed three-element zone list. -/
theorem C10_termination (cells : List Cell) (n : ℤ) (d : ℚ) (R : List CostRank)
    (hR : (handle_find_optimal_locations cells n d).locations = some R) :
    R.length ≤ n.toNat ∧
    (∀ i, i < R.length →
      usedUpTo (polyCellsOf cells) R i ⊂ usedUpTo (polyCellsOf cells) R (i + 1)) := by
  have hReq := handle_locations_eq cells n d R hR
  subst hReq
  refine ⟨specExtract_length_le (polyCellsOf cells) n.toNat 0 ∅, ?_⟩
  intro i hi
  obtain ⟨hne, hmin⟩ := specExtract_rank_min (polyCellsOf cells) n.toNat 0 ∅ i hi
  obtain ⟨c0, hc0, hc0c⟩ := minCostOf_mem _ hne
  rw [List.mem_filter] at hc0
  obtain ⟨hc0p, hc0u⟩ := hc0
  rw [decide_eq_true_eq] at hc0u
  show usedFrom (polyCellsOf cells) (specExtract (polyCellsOf cells) n.toNat 0 ∅) ∅ i ⊂
    usedFrom (polyCellsOf cells) (specExtract (polyCellsOf cells) n.toNat 0 ∅) ∅ i ∪
      consumedKeys (polyCellsOf cells)
        (rankAt (specExtract (polyCellsOf cells) n.toNat 0 ∅) i).cost
        (usedFrom (polyCellsOf cells) (specExtract (polyCellsOf cells) n.toNat 0 ∅) ∅ i)
  rw [Finset.ssubset_iff_of_subset (Finset.subset_union_left)]
  refine ⟨cellKey c0, ?_, hc0u⟩
  rw [Finset.mem_union]
  right
  unfold consumedKeys
  simp only [List.mem_toFinset, List.mem_map]
  refine ⟨c0, ?_, rfl⟩
  rw [List.mem_filter]
  refine ⟨hc0p, ?_⟩
  rw [Bool.and_eq_true, decide_eq_true_eq, decide_eq_true_eq]
  exact ⟨by rw [hc0c, hmin], hc0u⟩

unseal Rat.add Rat.mul Rat.inv Rat.sub Rat.ofScientific in
/-- C10 (witness): the theorem applied to the sample request. -/
theorem C10_termination_witness :
    (handle_find_optimal_locations sampleCells 3 (1/2)).locations =
      some (specExtract (polyCellsOf sampleCells) 3 0 ∅) ∧
    (specExtract (polyCellsOf sampleCells) 3 0 ∅).length ≤ 3 ∧
    usedUpTo (polyCellsOf sampleCells) (specExtract (polyCellsOf sampleCells) 3 0 ∅) 0 ⊂
      usedUpTo (polyCellsOf sampleCells) (specExtract (polyCellsOf sampleCells) 3 0 ∅) 1 :=
  ⟨by decide,
    (C10_termination sampleCells 3 (1/2) _ (by decide)).1,
    (C10_termination sampleCells 3 (1/2) _ (by decide)).2 0 (by decide)⟩

/-! ## Claim C5: number of ranks returned -/

unseal Rat.add Rat.mul Rat.inv Rat.sub Rat.ofScientific in
/-- C5 (counterexample): two eligible cells share the key `(0, 0)` with
costs `-40` and `-35`; with `n = 2` the request succeeds but returns a
single rank, while `min(n, number of distinct eligible costs) = 2`: marking
the shared key used by the first rank silently blocks the second cost
group. -/
theorem C5_counterexample :
    (handle_find_optimal_locations duplicateKeyCells 2 (1/2)).success = some true ∧
    (handle_find_optimal_locations duplicateKeyCells 2 (1/2)).locationsFound = some 1 ∧
    min (2:ℕ) (distinctCosts (polyCellsOf duplicateKeyCells)).card = 2 := by
  refine ⟨by decide, by decide, by decide⟩

/-- C5 (amended): provided no two eligible cells share a
`(centerLat, centerLng)` key while disagreeing on cost, a request with
nonempty cells, `n > 0` and a nonempty eligible set succeeds, and the
number of ranks returned is exactly `min(n, number of distinct cost values
among the eligible cells)`; when fewer than `n` distinct cost values exist
the shorter list is still a success response. -/
theorem C5_rank_count (cells : List Cell) (n : ℤ) (d : ℚ)
    (hkc : SameKeySameCost (polyCellsOf cells))
    (h1 : cells ≠ []) (h2 : 0 < n) (h3 : polyCellsOf cells ≠ []) :
    (handle_find_optimal_locations cells n d).success = some true ∧
    (handle_find_optimal_locations cells n d).locationsFound =
      some (min n.toNat (distinctCosts (polyCellsOf cells)).card) := by
  obtain ⟨hsucc, -, hfound⟩ := handle_success_fields cells n d h1 h2 h3
  refine ⟨hsucc, ?_⟩
  rw [hfound]
  congr 1
  rw [specExtract_length (polyCellsOf cells) hkc n.toNat 0 ∅, filter_not_mem_empty]

unseal Rat.add Rat.mul Rat.inv Rat.sub Rat.ofScientific in
/-- C5 (witness): the amended theorem applied to the sample request, which
has two distinct eligible costs and `n = 3`. -/
theorem C5_rank_count_witness :
    (handle_find_optimal_locations sampleCells 3 (1/2)).success = some true ∧
    (handle_find_optimal_locations sampleCells 3 (1/2)).locationsFound =
      some (min (3:ℤ).toNat (distinctCosts (polyCellsOf sampleCells)).card) :=
  C5_rank_count sampleCells 3 (1/2) (by decide) (by decide) (by decide) (by decide)

/-! ## Flood-fill invariants -/

theorem mapLookup_isSome_iff (m : List ((ℚ × ℚ) × Cell)) (k : ℚ × ℚ) :
    (mapLookup m k).isSome ↔ k ∈ m.map Prod.fst := by
  induction m with
  | nil => simp [mapLookup]
  | cons kc m ih =>
    rw [mapLookup]
    by_cases hk : k = kc.1
    · subst hk
      simp
    · rw [if_neg ?_]
      · simp only [List.map_cons, List.mem_cons]
        rw [ih]
        constructor
        · exact Or.inr
        · rintro (h | h)
          · exact absurd h hk
          · exact h
      · exact hk

theorem stepAdj_symm (m : List ((ℚ × ℚ) × Cell)) (offs : List (ℚ × ℚ)) (p : ℤ)
    {k1 k2 : ℚ × ℚ} (h : stepAdj m offs p k1 k2) : stepAdj m offs p k2 k1 :=
  ⟨h.2.1, h.1, h.2.2.symm⟩

theorem Reach_symm (m : List ((ℚ × ℚ) × Cell)) (offs : List (ℚ × ℚ)) (p : ℤ)
    {k1 k2 : ℚ × ℚ} (h : Reach m offs p k1 k2) : Reach m offs p k2 k1 := by
  induction h with
  | refl => exact Relation.ReflTransGen.refl
  | tail _ hstep ih =>
    exact Relation.ReflTransGen.trans
      (Relation.ReflTransGen.single (stepAdj_symm m offs p hstep)) ih

theorem Reach_trans (m : List ((ℚ × ℚ) × Cell)) (offs : List (ℚ × ℚ)) (p : ℤ)
    {k1 k2 k3 : ℚ × ℚ} (h1 : Reach m offs p k1 k2) (h2 : Reach m offs p k2 k3) :
    Reach m offs p k1 k3 :=
  Relation.ReflTransGen.trans h1 h2

theorem unvisCount_cons (m : List ((ℚ × ℚ) × Cell)) (visited : List (ℚ × ℚ)) (k : ℚ × ℚ)
    (hmem : k ∈ m.map Prod.fst) (hvis : k ∉ visited) :
    unvisCount m (k :: visited) = unvisCount m visited - 1 ∧ 0 < unvisCount m visited := by
  unfold unvisCount
  have hset : (m.map Prod.fst).toFinset.filter (fun x => x ∉ (k :: visited)) =
      ((m.map Prod.fst).toFinset.filter (fun x => x ∉ visited)).erase k := by
    apply Finset.ext
    intro x
    simp only [Finset.mem_filter, Finset.mem_erase, List.mem_cons, List.mem_toFinset]
    constructor
    · rintro ⟨hx, hnx⟩
      push_neg at hnx
      exact ⟨hnx.1, ⟨hx, hnx.2⟩⟩
    · rintro ⟨hne, hx, hnx⟩
      refine ⟨hx, ?_⟩
      push_neg
      exact ⟨hne, hnx⟩
  have hkmem : k ∈ (m.map Prod.fst).toFinset.filter (fun x => x ∉ visited) := by
    rw [Finset.mem_filter, List.mem_toFinset]
    exact ⟨hmem, by simpa using hvis⟩
  rw [hset, Finset.card_erase_of_mem hkmem]
  exact ⟨rfl, Finset.card_pos.mpr ⟨k, hkmem⟩⟩

theorem unvisCount_le (m : List ((ℚ × ℚ) × Cell)) (visited : List (ℚ × ℚ)) :
    unvisCount m visited ≤ m.length := by
  unfold unvisCount
  calc ((m.map Prod.fst).toFinset.filter (fun k => k ∉ visited)).card
      ≤ (m.map Prod.fst).toFinset.card := Finset.card_filter_le _ _
    _ ≤ (m.map Prod.fst).length := (m.map Prod.fst).toFinset_card_le
    _ = m.length := List.length_map _ _

theorem floodLoop_spec (m : List ((ℚ × ℚ) × Cell)) (offs : List (ℚ × ℚ)) (p : ℤ)
    (Hmap : ∀ kc ∈ m, kc.1 = cellGridKey p kc.2) (Hoffs : offs.length ≤ 8) (k0 : ℚ × ℚ) :
    ∀ (fuel : ℕ) (visited stack : List (ℚ × ℚ)) (region : List Cell),
      9 * unvisCount m visited + stack.length ≤ fuel →
      visited.Nodup →
      (∀ k ∈ stack, (mapLookup m k).isSome → Reach m offs p k0 k) →
      ∀ out, out = floodLoop m offs p fuel visited stack region →
        (∀ k ∈ visited, k ∈ out.2) ∧
        (∀ k ∈ stack, (mapLookup m k).isSome → k ∈ out.2) ∧
        (∀ k ∈ out.2, k ∉ visited →
          ((mapLookup m k).isSome ∧ Reach m offs p k0 k ∧
            ∀ d ∈ offs, (mapLookup m (nbrKey p k d)).isSome → nbrKey p k d ∈ out.2)) ∧
        (∃ tail, out.1 = region ++ tail ∧
          (∀ c ∈ tail, mapLookup m (cellGridKey p c) = some c) ∧
          (tail.map (cellGridKey p)).Nodup ∧
          (∀ k, k ∈ tail.map (cellGridKey p) ↔ (k ∈ out.2 ∧ k ∉ visited))) ∧
        out.2.Nodup := by
  intro fuel
  induction fuel with
  | zero =>
    intro visited stack region hfuel hnd hreach out hout
    have hstack : stack = [] := by
      rw [← List.length_eq_zero]
      omega
    subst hstack
    subst hout
    simp only [floodLoop]
    refine ⟨fun k hk => hk, fun k hk => absurd hk (List.not_mem_nil k), ?_, ?_, hnd⟩
    · intro k hk hnk
      exact absurd hk hnk
    · exact ⟨[], by simp, by simp, by simp, fun k => by simp⟩
  | succ fuel ih =>
    intro visited stack region hfuel hnd hreach out hout
    match stack with
    | [] =>
      subst hout
      simp only [floodLoop]
      refine ⟨fun k hk => hk, fun k hk => absurd hk (List.not_mem_nil k), ?_, ?_, hnd⟩
      · intro k hk hnk
        exact absurd hk hnk
      · exact ⟨[], by simp, by simp, by simp, fun k => by simp⟩
    | k :: stack =>
      by_cases hv : k ∈ visited
      · have hout2 : out = floodLoop m offs p fuel visited stack region := by
          rw [hout]
          simp only [floodLoop]
          rw [if_pos hv]
        obtain ⟨i1, i2, i3, i4, i5⟩ := ih visited stack region (by
            simp only [List.length_cons] at hfuel
            omega) hnd
          (fun k' hk' => hreach k' (List.mem_cons_of_mem _ hk')) out hout2
        refine ⟨i1, ?_, i3, i4, i5⟩
        intro k' hk' hsome
        rcases List.mem_cons.mp hk' with rfl | hk'
        · exact i1 k' hv
        · exact i2 k' hk' hsome
      · cases hlook : mapLookup m k with
        | none =>
          have hout2 : out = floodLoop m offs p fuel visited stack region := by
            rw [hout]
            simp only [floodLoop]
            rw [if_neg hv, hlook]
          obtain ⟨i1, i2, i3, i4, i5⟩ := ih visited stack region (by
              simp only [List.length_cons] at hfuel
              omega) hnd
            (fun k' hk' => hreach k' (List.mem_cons_of_mem _ hk')) out hout2
          refine ⟨i1, ?_, i3, i4, i5⟩
          intro k' hk' hsome
          rcases List.mem_cons.mp hk' with rfl | hk'
          · rw [hlook] at hsome
            cases hsome
          · exact i2 k' hk' hsome
        | some c =>
          have hsome_k : (mapLookup m k).isSome := by rw [hlook]; rfl
          have hkmem : k ∈ m.map Prod.fst := (mapLookup_isSome_iff m k).mp hsome_k
          have hkgk : k = cellGridKey p c := Hmap (k, c) (mapLookup_mem m k c hlook)
          have hreach_k : Reach m offs p k0 k := hreach k (List.mem_cons_self _ _) hsome_k
          obtain ⟨hu1, hu2⟩ := unvisCount_cons m visited k hkmem hv
          have hout2 : out = floodLoop m offs p fuel (k :: visited)
              (((offs.map (fun d => grid_key p (k.1 + d.1) (k.2 + d.2))).filter
                (fun nk => (mapLookup m nk).isSome && decide (nk ∉ k :: visited))).reverse ++ stack)
              (region ++ [c]) := by
            rw [hout]
            simp only [floodLoop]
            rw [if_neg hv, hlook]
          have hnbrs_len :
              ((offs.map (fun d => grid_key p (k.1 + d.1) (k.2 + d.2))).filter
                (fun nk => (mapLookup m nk).isSome && decide (nk ∉ k :: visited))).length ≤ 8 := by
            calc ((offs.map (fun d => grid_key p (k.1 + d.1) (k.2 + d.2))).filter
                  (fun nk => (mapLookup m nk).isSome && decide (nk ∉ k :: visited))).length
                ≤ (offs.map (fun d => grid_key p (k.1 + d.1) (k.2 + d.2))).length :=
                  List.length_filter_le _ _
              _ = offs.length := List.length_map _ _
              _ ≤ 8 := Hoffs
          have hfuel2 : 9 * unvisCount m (k :: visited) +
              ((((offs.map (fun d => grid_key p (k.1 + d.1) (k.2 + d.2))).filter
                (fun nk => (mapLookup m nk).isSome && decide (nk ∉ k :: visited))).reverse ++
                stack)).length ≤ fuel := by
            rw [List.length_append, List.length_reverse]
            simp only [List.length_cons] at hfuel
            omega
          have hnd2 : (k :: visited).Nodup := List.nodup_cons.mpr ⟨hv, hnd⟩
          have hreach2 : ∀ k' ∈ (((offs.map (fun d => grid_key p (k.1 + d.1) (k.2 + d.2))).filter
              (fun nk => (mapLookup m nk).isSome && decide (nk ∉ k :: visited))).reverse ++ stack),
              (mapLookup m k').isSome → Reach m offs p k0 k' := by
            intro k' hk' hsome'
            rcases List.mem_append.mp hk' with h | h
            · rw [List.mem_reverse, List.mem_filter] at h
              obtain ⟨hmem', _⟩ := h
              rw [List.mem_map] at hmem'
              obtain ⟨d, hd, rfl⟩ := hmem'
              refine Relation.ReflTransGen.tail hreach_k ?_
              exact ⟨hsome_k, hsome', Or.inl ⟨d, hd, rfl⟩⟩
            · exact hreach k' (List.mem_cons_of_mem _ h) hsome'
          obtain ⟨i1, i2, i3, i4, i5⟩ := ih (k :: visited) _ (region ++ [c]) hfuel2 hnd2
            hreach2 out hout2
          have hkout : k ∈ out.2 := i1 k (List.mem_cons_self _ _)
          refine ⟨?_, ?_, ?_, ?_, i5⟩
          · intro k' hk'
            exact i1 k' (List.mem_cons_of_mem _ hk')
          · intro k' hk' hsome'
            rcases List.mem_cons.mp hk' with rfl | hk'
            · exact hkout
            · exact i2 k' (List.mem_append_right _ hk') hsome'
          · intro k' hk'out hk'nv
            by_cases hkk : k' = k
            · subst hkk
              refine ⟨hsome_k, hreach_k, ?_⟩
              intro d hd hsome'
              by_cases hnv : nbrKey p k' d ∈ k' :: visited
              · exact i1 _ hnv
              · refine i2 _ (List.mem_append_left _ ?_) hsome'
                rw [List.mem_reverse, List.mem_filter]
                refine ⟨?_, ?_⟩
                · rw [List.mem_map]
                  exact ⟨d, hd, rfl⟩
                · rw [Bool.and_eq_true, decide_eq_true_eq]
                  exact ⟨hsome', hnv⟩
            · have : k' ∉ k :: visited := by
                rw [List.mem_cons]
                push_neg
                exact ⟨hkk, hk'nv⟩
              exact i3 k' hk'out this
          · obtain ⟨tail', ht1, ht2, ht3, ht4⟩ := i4
            refine ⟨c :: tail', ?_, ?_, ?_, ?_⟩
            · rw [ht1]
              simp
            · intro c' hc'
              rcases List.mem_cons.mp hc' with rfl | hc'
              · rw [← hkgk]
                exact hlook
              · exact ht2 c' hc'
            · rw [List.map_cons, List.nodup_cons]
              refine ⟨?_, ht3⟩
              intro hmem'
              have := (ht4 _).mp hmem'
              rw [← hkgk] at this
              exact this.2 (List.mem_cons_self _ _)
            · intro k'
              rw [List.map_cons, List.mem_cons, ← hkgk]
              constructor
              · rintro (rfl | hmem')
                · exact ⟨hkout, hv⟩
                · have := (ht4 _).mp hmem'
                  exact ⟨this.1, fun h => this.2 (List.mem_cons_of_mem _ h)⟩
              · rintro ⟨hk'out, hk'nv⟩
                by_cases hkk : k' = k
                · exact Or.inl hkk
                · refine Or.inr ((ht4 _).mpr ⟨hk'out, ?_⟩)
                  rw [List.mem_cons]
                  push_neg
                  exact ⟨hkk, hk'nv⟩

theorem mem_flat_keys (p : ℤ) (regions : List (List Cell)) (k : ℚ × ℚ) :
    k ∈ (regions.flatMap id).map (cellGridKey p) ↔
      ∃ j, ∃ h : j < regions.length, ∃ c ∈ regions[j], cellGridKey p c = k := by
  rw [List.mem_map]
  constructor
  · rintro ⟨c, hc, rfl⟩
    rw [List.mem_flatMap] at hc
    obtain ⟨r, hr, hcr⟩ := hc
    rw [List.mem_iff_getElem] at hr
    obtain ⟨j, hj, rfl⟩ := hr
    exact ⟨j, hj, c, hcr, rfl⟩
  · rintro ⟨j, hj, c, hc, rfl⟩
    refine ⟨c, ?_, rfl⟩
    rw [List.mem_flatMap]
    exact ⟨regions[j], List.getElem_mem hj, hc⟩

theorem floodAll_spec (m : List ((ℚ × ℚ) × Cell)) (offs : List (ℚ × ℚ)) (p : ℤ)
    (Hmap : ∀ kc ∈ m, kc.1 = cellGridKey p kc.2) (Hoffs : offs.length ≤ 8)
    (fuel : ℕ) (Hfuel : 9 * m.length + 1 ≤ fuel) :
    ∀ (cs : List Cell) (visited : List (ℚ × ℚ)) (regions : List (List Cell)),
      (∀ c ∈ cs, (mapLookup m (cellGridKey p c)).isSome) →
      visited.Nodup →
      (∀ k ∈ visited, (mapLookup m k).isSome) →
      ((regions.flatMap id).map (cellGridKey p)).Nodup →
      (∀ k, k ∈ (regions.flatMap id).map (cellGridKey p) ↔ k ∈ visited) →
      (∀ r ∈ regions, ∀ c ∈ r, mapLookup m (cellGridKey p c) = some c) →
      (∀ i, i < regions.length → ∀ c ∈ regions.getD i [], ∀ d ∈ offs,
        (mapLookup m (nbrKey p (cellGridKey p c) d)).isSome →
        ∃ j, j ≤ i ∧ ∃ c', c' ∈ regions.getD j [] ∧
          cellGridKey p c' = nbrKey p (cellGridKey p c) d) →
      (∀ i, i < regions.length → ∀ c ∈ regions.getD i [], ∀ c', c' ∈ regions.getD i [] →
        Reach m offs p (cellGridKey p c) (cellGridKey p c')) →
      (∀ r ∈ regions, r ≠ []) →
      ∀ out, out = floodAll m offs p fuel cs visited regions →
        out.2.Nodup ∧
        (∀ k ∈ out.2, (mapLookup m k).isSome) ∧
        ((out.1.flatMap id).map (cellGridKey p)).Nodup ∧
        (∀ k, k ∈ (out.1.flatMap id).map (cellGridKey p) ↔ k ∈ out.2) ∧
        (∀ r ∈ out.1, ∀ c ∈ r, mapLookup m (cellGridKey p c) = some c) ∧
        (∀ i, i < out.1.length → ∀ c ∈ out.1.getD i [], ∀ d ∈ offs,
          (mapLookup m (nbrKey p (cellGridKey p c) d)).isSome →
          ∃ j, j ≤ i ∧ ∃ c', c' ∈ out.1.getD j [] ∧
            cellGridKey p c' = nbrKey p (cellGridKey p c) d) ∧
        (∀ i, i < out.1.length → ∀ c ∈ out.1.getD i [], ∀ c', c' ∈ out.1.getD i [] →
          Reach m offs p (cellGridKey p c) (cellGridKey p c')) ∧
        (∀ r ∈ out.1, r ≠ []) ∧
        (∀ c ∈ cs, cellGridKey p c ∈ out.2) ∧
        (∀ k ∈ visited, k ∈ out.2) := by
  intro cs
  induction cs with
  | nil =>
    intro visited regions _ hnd hvsome hcnd hciff hD hE hF hne out hout
    subst hout
    simp only [floodAll]
    exact ⟨hnd, hvsome, hcnd, hciff, hD, hE, hF, hne,
      fun c hc => absurd hc (List.not_mem_nil c), fun k hk => hk⟩
  | cons c0 cs ih =>
    intro visited regions hcs hnd hvsome hcnd hciff hD hE hF hne out hout
    by_cases hv : cellGridKey p c0 ∈ visited
    · have hout2 : out = floodAll m offs p fuel cs visited regions := by
        rw [hout]
        simp only [floodAll]
        rw [if_pos hv]
      obtain ⟨o1, o2, o3, o4, o5, o6, o7, o8, o9, o10⟩ :=
        ih visited regions (fun c hc => hcs c (List.mem_cons_of_mem _ hc))
          hnd hvsome hcnd hciff hD hE hF hne out hout2
      refine ⟨o1, o2, o3, o4, o5, o6, o7, o8, ?_, o10⟩
      intro c hc
      rcases List.mem_cons.mp hc with rfl | hc
      · exact o10 _ hv
      · exact o9 c hc
    · -- start a new flood fill at c0's key
      obtain ⟨f1, f2, f3, f4, f5⟩ := floodLoop_spec m offs p Hmap Hoffs (cellGridKey p c0)
        fuel visited [cellGridKey p c0] []
        (by have := unvisCount_le m visited; simp only [List.length_cons, List.length_nil]; omega)
        hnd
        (by
          intro k hk _
          rcases List.mem_singleton.mp hk with rfl
          exact Relation.ReflTransGen.refl)
        (floodLoop m offs p fuel visited [cellGridKey p c0] []) rfl
      obtain ⟨tail, ht1, ht2, ht3, ht4⟩ := f4
      rw [List.nil_append] at ht1
      have hstart_mem : cellGridKey p c0 ∈
          (floodLoop m offs p fuel visited [cellGridKey p c0] []).2 :=
        f2 _ (List.mem_singleton_self _) (hcs c0 (List.mem_cons_self _ _))
      have hstart_tail : cellGridKey p c0 ∈ tail.map (cellGridKey p) :=
        (ht4 _).mpr ⟨hstart_mem, hv⟩
      have htail_ne : (floodLoop m offs p fuel visited [cellGridKey p c0] []).1 ≠ [] := by
        rw [ht1]
        intro h
        rw [h] at hstart_tail
        simp at hstart_tail
      have hout2 : out = floodAll m offs p fuel cs
          (floodLoop m offs p fuel visited [cellGridKey p c0] []).2
          (regions ++ [(floodLoop m offs p fuel visited [cellGridKey p c0] []).1]) := by
        rw [hout]
        simp only [floodAll]
        rw [if_neg hv, if_neg htail_ne]
      set rv := floodLoop m offs p fuel visited [cellGridKey p c0] [] with hrv
      have hcs2 : ∀ c ∈ cs, (mapLookup m (cellGridKey p c)).isSome :=
        fun c hc => hcs c (List.mem_cons_of_mem _ hc)
      have hvsome2 : ∀ k ∈ rv.2, (mapLookup m k).isSome := by
        intro k hk
        by_cases hkv : k ∈ visited
        · exact hvsome k hkv
        · exact (f3 k hk hkv).1
      have hflat_eq : (((regions ++ [rv.1]).flatMap id).map (cellGridKey p)) =
          (regions.flatMap id).map (cellGridKey p) ++ tail.map (cellGridKey p) := by
        rw [List.flatMap_append, List.map_append, ht1]
        simp
      have hcnd2 : (((regions ++ [rv.1]).flatMap id).map (cellGridKey p)).Nodup := by
        rw [hflat_eq]
        refine List.Nodup.append hcnd ht3 ?_
        intro k hk1 hk2
        exact ((ht4 k).mp hk2).2 ((hciff k).mp hk1)
      have hciff2 : ∀ k, k ∈ ((regions ++ [rv.1]).flatMap id).map (cellGridKey p) ↔
          k ∈ rv.2 := by
        intro k
        rw [hflat_eq, List.mem_append]
        constructor
        · rintro (h | h)
          · exact f1 k ((hciff k).mp h)
          · exact ((ht4 k).mp h).1
        · intro h
          by_cases hkv : k ∈ visited
          · exact Or.inl ((hciff k).mpr hkv)
          · exact Or.inr ((ht4 k).mpr ⟨h, hkv⟩)
      have hD2 : ∀ r ∈ regions ++ [rv.1], ∀ c ∈ r,
          mapLookup m (cellGridKey p c) = some c := by
        intro r hr c hc
        rcases List.mem_append.mp hr with h | h
        · exact hD r h c hc
        · rw [List.mem_singleton] at h
          subst h
          rw [ht1] at hc
          exact ht2 c hc
      have hlen2 : (regions ++ [rv.1]).length = regions.length + 1 := by
        rw [List.length_append, List.length_cons, List.length_nil]
      have hgetD_lt : ∀ i, i < regions.length →
          (regions ++ [rv.1]).getD i [] = regions.getD i [] :=
        fun i hi => List.getD_append _ _ _ _ hi
      have hgetD_last : (regions ++ [rv.1]).getD regions.length [] = rv.1 := by
        rw [List.getD_append_right _ _ _ _ (le_refl _), Nat.sub_self]
        rfl
      have hE2 : ∀ i, i < (regions ++ [rv.1]).length →
          ∀ c ∈ (regions ++ [rv.1]).getD i [], ∀ d ∈ offs,
          (mapLookup m (nbrKey p (cellGridKey p c) d)).isSome →
          ∃ j, j ≤ i ∧ ∃ c', c' ∈ (regions ++ [rv.1]).getD j [] ∧
            cellGridKey p c' = nbrKey p (cellGridKey p c) d := by
        intro i hi c hc d hd hnsome
        by_cases hilt : i < regions.length
        · rw [hgetD_lt i hilt] at hc
          obtain ⟨j, hj, c', hc', hgk⟩ := hE i hilt c hc d hd hnsome
          refine ⟨j, hj, c', ?_, hgk⟩
          rw [hgetD_lt j (lt_of_le_of_lt hj hilt)]
          exact hc'
        · have hieq : i = regions.length := by
            rw [hlen2] at hi
            omega
          subst hieq
          rw [hgetD_last, ht1] at hc
          have hcknew := (ht4 (cellGridKey p c)).mp (List.mem_map.mpr ⟨c, hc, rfl⟩)
          obtain ⟨-, -, hclose⟩ := f3 _ hcknew.1 hcknew.2
          have hnbr2 : nbrKey p (cellGridKey p c) d ∈ rv.2 := hclose d hd hnsome
          have hmem2 : nbrKey p (cellGridKey p c) d ∈
              ((regions ++ [rv.1]).flatMap id).map (cellGridKey p) := (hciff2 _).mpr hnbr2
          rw [mem_flat_keys] at hmem2
          obtain ⟨j, hj, c', hc', hgk⟩ := hmem2
          have hj' : j < regions.length + 1 := hlen2 ▸ hj
          refine ⟨j, by omega, c', ?_, hgk⟩
          rw [List.getD_eq_getElem _ _ hj]
          exact hc'
      have hF2 : ∀ i, i < (regions ++ [rv.1]).length →
          ∀ c ∈ (regions ++ [rv.1]).getD i [], ∀ c', c' ∈ (regions ++ [rv.1]).getD i [] →
          Reach m offs p (cellGridKey p c) (cellGridKey p c') := by
        intro i hi c hc c' hc'
        by_cases hilt : i < regions.length
        · rw [hgetD_lt i hilt] at hc hc'
          exact hF i hilt c hc c' hc'
        · have hieq : i = regions.length := by
            rw [hlen2] at hi
            omega
          subst hieq
          rw [hgetD_last, ht1] at hc hc'
          have h1 := (ht4 (cellGridKey p c)).mp (List.mem_map.mpr ⟨c, hc, rfl⟩)
          have h2 := (ht4 (cellGridKey p c')).mp (List.mem_map.mpr ⟨c', hc', rfl⟩)
          obtain ⟨-, hr1, -⟩ := f3 _ h1.1 h1.2
          obtain ⟨-, hr2, -⟩ := f3 _ h2.1 h2.2
          exact Reach_trans m offs p (Reach_symm m offs p hr1) hr2
      have hne2 : ∀ r ∈ regions ++ [rv.1], r ≠ [] := by
        intro r hr
        rcases List.mem_append.mp hr with h | h
        · exact hne r h
        · rw [List.mem_singleton] at h
          subst h
          exact htail_ne
      obtain ⟨o1, o2, o3, o4, o5, o6, o7, o8, o9, o10⟩ :=
        ih rv.2 (regions ++ [rv.1]) hcs2 f5 hvsome2 hcnd2 hciff2 hD2 hE2 hF2 hne2 out hout2
      refine ⟨o1, o2, o3, o4, o5, o6, o7, o8, ?_, ?_⟩
      · intro c hc
        rcases List.mem_cons.mp hc with rfl | hc
        · exact o10 _ hstart_mem
        · exact o9 c hc
      · intro k hk
        exact o10 k (f1 k hk)

theorem mapLookup_buildCellMap_isSome (p : ℤ) (cells : List Cell) (c : Cell) (hc : c ∈ cells) :
    (mapLookup (buildCellMap p cells) (cellGridKey p c)).isSome := by
  rw [mapLookup_isSome_iff, buildCellMap_eq, List.map_reverse, List.mem_reverse, List.map_map]
  exact List.mem_map.mpr ⟨c, hc, rfl⟩

theorem mapLookup_buildCellMap_inj (p : ℤ) (cells : List Cell)
    (hinj : ∀ c1 ∈ cells, ∀ c2 ∈ cells, cellGridKey p c1 = cellGridKey p c2 → c1 = c2)
    (c : Cell) (hc : c ∈ cells) :
    mapLookup (buildCellMap p cells) (cellGridKey p c) = some c := by
  obtain ⟨c', hc'⟩ := Option.isSome_iff_exists.mp (mapLookup_buildCellMap_isSome p cells c hc)
  obtain ⟨hc'mem, hk⟩ := mapLookup_cells p cells _ _ hc'
  rw [hc', hinj c' hc'mem c hc hk.symm]

theorem mapLookup_buildCellMap_ext (p : ℤ) (cells cells' : List Cell)
    (hperm : List.Perm cells cells')
    (hinj : ∀ c1 ∈ cells, ∀ c2 ∈ cells, cellGridKey p c1 = cellGridKey p c2 → c1 = c2) :
    ∀ k, mapLookup (buildCellMap p cells) k = mapLookup (buildCellMap p cells') k := by
  intro k
  cases h : mapLookup (buildCellMap p cells) k with
  | some c =>
    obtain ⟨hcmem, rfl⟩ := mapLookup_cells p cells k c h
    have hinj' : ∀ c1 ∈ cells', ∀ c2 ∈ cells', cellGridKey p c1 = cellGridKey p c2 → c1 = c2 := by
      intro c1 h1 c2 h2 hk12
      exact hinj c1 (hperm.mem_iff.mpr h1) c2 (hperm.mem_iff.mpr h2) hk12
    rw [mapLookup_buildCellMap_inj p cells' hinj' c (hperm.mem_iff.mp hcmem)]
  | none =>
    cases h' : mapLookup (buildCellMap p cells') k with
    | none => rfl
    | some c' =>
      obtain ⟨hc'mem, rfl⟩ := mapLookup_cells p cells' k c' h'
      have hs := mapLookup_buildCellMap_isSome p cells c' (hperm.mem_iff.mpr hc'mem)
      rw [h] at hs
      cases hs

theorem find_connected_regions_eq (cells : List Cell) (hne : cells ≠ []) :
    find_connected_regions cells =
      (floodAll (buildCellMap (inferredPrecision cells) cells)
        (neighbor_offsets (inferGridSpacing cells)) (inferredPrecision cells)
        (9 * (buildCellMap (inferredPrecision cells) cells).length + 1) cells [] []).1 := by
  unfold find_connected_regions
  rw [if_neg hne]
  rfl

theorem find_connected_regions_spec (cells : List Cell) (hne : cells ≠ []) :
    (((find_connected_regions cells).flatMap id).map (cellGridKey (inferredPrecision cells))).Nodup ∧
    (∀ r ∈ find_connected_regions cells, ∀ c ∈ r,
      mapLookup (buildCellMap (inferredPrecision cells) cells)
        (cellGridKey (inferredPrecision cells) c) = some c) ∧
    (∀ c ∈ cells, cellGridKey (inferredPrecision cells) c ∈
      ((find_connected_regions cells).flatMap id).map (cellGridKey (inferredPrecision cells))) ∧
    (∀ r ∈ find_connected_regions cells, r ≠ []) ∧
    (∀ i, i < (find_connected_regions cells).length →
      ∀ c ∈ (find_connected_regions cells).getD i [],
      ∀ d ∈ neighbor_offsets (inferGridSpacing cells),
      (mapLookup (buildCellMap (inferredPrecision cells) cells)
        (nbrKey (inferredPrecision cells) (cellGridKey (inferredPrecision cells) c) d)).isSome →
      ∃ j, j ≤ i ∧ ∃ c', c' ∈ (find_connected_regions cells).getD j [] ∧
        cellGridKey (inferredPrecision cells) c' =
          nbrKey (inferredPrecision cells) (cellGridKey (inferredPrecision cells) c) d) ∧
    (∀ i, i < (find_connected_regions cells).length →
      ∀ c ∈ (find_connected_regions cells).getD i [],
      ∀ c', c' ∈ (find_connected_regions cells).getD i [] →
      Reach (buildCellMap (inferredPrecision cells) cells)
        (neighbor_offsets (inferGridSpacing cells)) (inferredPrecision cells)
        (cellGridKey (inferredPrecision cells) c) (cellGridKey (inferredPrecision cells) c')) := by
  obtain ⟨o1, o2, o3, o4, o5, o6, o7, o8, o9, o10⟩ :=
    floodAll_spec (buildCellMap (inferredPrecision cells) cells)
      (neighbor_offsets (inferGridSpacing cells)) (inferredPrecision cells)
      (fun kc hkc => (buildCellMap_mem _ _ kc hkc).2)
      (by simp [neighbor_offsets])
      (9 * (buildCellMap (inferredPrecision cells) cells).length + 1) (le_refl _)
      cells [] []
      (fun c hc => mapLookup_buildCellMap_isSome _ _ c hc)
      List.nodup_nil
      (fun k hk => absurd hk (List.not_mem_nil k))
      (by simp)
      (by simp)
      (fun r hr => absurd hr (List.not_mem_nil r))
      (by intro i hi; simp at hi)
      (by intro i hi; simp at hi)
      (fun r hr => absurd hr (List.not_mem_nil r))
      _ rfl
  rw [← find_connected_regions_eq cells hne] at o3 o4 o5 o6 o7 o8
  refine ⟨o3, o5, ?_, o8, o6, o7⟩
  intro c hc
  exact (o4 _).mpr (o9 c hc)

theorem mem_flat_of_mem_getD (R : List (List Cell)) (i : ℕ) (hi : i < R.length)
    (c : Cell) (hc : c ∈ R.getD i []) : c ∈ R.flatMap id := by
  rw [List.getD_eq_getElem _ _ hi] at hc
  rw [List.mem_flatMap]
  exact ⟨R[i], List.getElem_mem hi, hc⟩

theorem flat_keys_inj (p : ℤ) (R : List (List Cell))
    (hnd : ((R.flatMap id).map (cellGridKey p)).Nodup) :
    ∀ i, i < R.length → ∀ j, j < R.length →
    ∀ c ∈ R.getD i [], ∀ c' ∈ R.getD j [],
    cellGridKey p c = cellGridKey p c' → i = j ∧ c = c' := by
  intro i hi j hj c hc c' hc' hk
  have hflat : c ∈ R.flatMap id := mem_flat_of_mem_getD R i hi c hc
  have hflat' : c' ∈ R.flatMap id := mem_flat_of_mem_getD R j hj c' hc'
  have hcc : c = c' := List.inj_on_of_nodup_map hnd hflat hflat' hk
  subst hcc
  refine ⟨?_, rfl⟩
  by_contra hij
  have hnd2 : (R.flatMap id).Nodup := List.Nodup.of_map _ hnd
  obtain ⟨-, hpair⟩ := List.nodup_flatMap.mp hnd2
  rw [List.pairwise_iff_getElem] at hpair
  rcases Nat.lt_or_ge i j with h | h
  · exact hpair i j hi hj h
      (by rw [List.getD_eq_getElem _ _ hi] at hc; exact hc)
      (by rw [List.getD_eq_getElem _ _ hj] at hc'; exact hc')
  · have hji : j < i := by omega
    exact hpair j i hj hi hji
      (by rw [List.getD_eq_getElem _ _ hj] at hc'; exact hc')
      (by rw [List.getD_eq_getElem _ _ hi] at hc; exact hc)

/-! ## Claim C2: partition into maximal 8-connected regions -/

unseal Rat.add Rat.mul Rat.inv Rat.sub Rat.ofScientific in
/-- C2 (counterexample): in `collidingCells` the first cell rounds to the
same grid key as the second, the last-write-wins dict keeps only the later
cell, and the first input cell appears in no returned region at all (so
not in exactly one). -/
theorem C2_counterexample :
    (⟨0, 0, -40, 1, 0, true⟩ : Cell) ∈ collidingCells ∧
    ((find_connected_regions collidingCells).flatMap id).count ⟨0, 0, -40, 1, 0, true⟩ = 0 := by
  decide

/-- C2 (amended): for a non-empty input whose cells map to pairwise
distinct grid keys at the inferred resolution and whose quantized
8-neighbour relation is symmetric on the input, every input cell appears
in exactly one returned region, and the regions are maximal: no cell of
one region is an 8-neighbour, in the quantized key space, of a cell of a
different region.  (Without key injectivity a colliding cell is silently
dropped, `C2_counterexample`.) -/
theorem C2_partition (cells : List Cell) (hne : cells ≠ [])
    (hinj : KeysInjective cells) (hsym : AdjSymmetric cells) :
    (∀ c ∈ cells, ((find_connected_regions cells).flatMap id).count c = 1) ∧
    (∀ r1 ∈ find_connected_regions cells, ∀ r2 ∈ find_connected_regions cells, r1 ≠ r2 →
      ∀ c1 ∈ r1, ∀ c2 ∈ r2, ¬ cellAdj cells c1 c2) := by
  obtain ⟨hnd, hlook, hkeys, hnonempty, hE, hF⟩ := find_connected_regions_spec cells hne
  have hmem_cells : ∀ c ∈ (find_connected_regions cells).flatMap id, c ∈ cells := by
    intro c hc
    rw [List.mem_flatMap] at hc
    obtain ⟨r, hr, hcr⟩ := hc
    exact find_connected_regions_mem cells r hr c hcr
  constructor
  · intro c hc
    have hm : c ∈ (find_connected_regions cells).flatMap id := by
      have hk := hkeys c hc
      rw [List.mem_map] at hk
      obtain ⟨c', hc', hkeq⟩ := hk
      have hcc : c' = c := hinj c' (hmem_cells c' hc') c hc hkeq
      rwa [hcc] at hc'
    have h1 : ((find_connected_regions cells).flatMap id).count c ≤ 1 :=
      List.nodup_iff_count_le_one.mp (List.Nodup.of_map _ hnd) c
    have h2 : 0 < ((find_connected_regions cells).flatMap id).count c :=
      List.count_pos_iff.mpr hm
    omega
  · intro r1 hr1 r2 hr2 hne12 c1 hc1 c2 hc2 hadj
    obtain ⟨i, hi, hr1e⟩ := List.mem_iff_getElem.mp hr1
    obtain ⟨j, hj, hr2e⟩ := List.mem_iff_getElem.mp hr2
    have hc1' : c1 ∈ (find_connected_regions cells).getD i [] := by
      rw [List.getD_eq_getElem _ _ hi, hr1e]
      exact hc1
    have hc2' : c2 ∈ (find_connected_regions cells).getD j [] := by
      rw [List.getD_eq_getElem _ _ hj, hr2e]
      exact hc2
    have hij : i ≠ j := by
      intro h
      subst h
      rw [hr1e] at hr2e
      exact hne12 hr2e
    have hc1cells : c1 ∈ cells := find_connected_regions_mem cells r1 hr1 c1 hc1
    have hc2cells : c2 ∈ cells := find_connected_regions_mem cells r2 hr2 c2 hc2
    have hadj' : cellAdj cells c2 c1 := hsym c1 hc1cells c2 hc2cells hadj
    have hstep : ∀ a b : Cell, ∀ ia ib : ℕ, ia < (find_connected_regions cells).length →
        ib < (find_connected_regions cells).length →
        a ∈ (find_connected_regions cells).getD ia [] →
        b ∈ (find_connected_regions cells).getD ib [] →
        cellAdj cells a b → ib ≤ ia := by
      intro a b ia ib hia hib ha hb hab
      unfold cellAdj keyAdj at hab
      obtain ⟨d, hd, hdk⟩ := hab
      have hnb : nbrKey (inferredPrecision cells) (cellGridKey (inferredPrecision cells) a) d =
          cellGridKey (inferredPrecision cells) b := hdk
      have hrb : (find_connected_regions cells).getD ib [] ∈ find_connected_regions cells := by
        rw [List.getD_eq_getElem _ _ hib]
        exact List.getElem_mem hib
      have hsome : (mapLookup (buildCellMap (inferredPrecision cells) cells)
          (nbrKey (inferredPrecision cells) (cellGridKey (inferredPrecision cells) a) d)).isSome := by
        rw [hnb, hlook ((find_connected_regions cells).getD ib []) hrb b hb]
        rfl
      obtain ⟨j', hj'le, c', hc', hk'⟩ := hE ia hia a ha d hd hsome
      rw [hnb] at hk'
      have hj'lt : j' < (find_connected_regions cells).length := lt_of_le_of_lt hj'le hia
      obtain ⟨hj'eq, -⟩ := flat_keys_inj (inferredPrecision cells) (find_connected_regions cells)
        hnd j' hj'lt ib hib c' hc' b hb hk'
      omega
    have h1 := hstep c1 c2 i j hi hj hc1' hc2' hadj
    have h2 := hstep c2 c1 j i hj hi hc2' hc1' hadj'
    exact hij (by omega)

unseal Rat.add Rat.mul Rat.inv Rat.sub Rat.ofScientific in
/-- C2 (witness): the amended theorem applied to the concrete sample
request, whose cell keys are injective and whose quantized neighbour
relation is symmetric. -/
theorem C2_partition_witness :
    sampleCells ≠ [] ∧ KeysInjective sampleCells ∧ AdjSymmetric sampleCells ∧
    ((∀ c ∈ sampleCells, ((find_connected_regions sampleCells).flatMap id).count c = 1) ∧
      (∀ r1 ∈ find_connected_regions sampleCells, ∀ r2 ∈ find_connected_regions sampleCells,
        r1 ≠ r2 → ∀ c1 ∈ r1, ∀ c2 ∈ r2, ¬ cellAdj sampleCells c1 c2)) :=
  ⟨by decide, by decide, by decide,
    C2_partition sampleCells (by decide) (by decide) (by decide)⟩

/-! ## Claim C3: no key is consumed by two ranks -/

theorem usedFrom_zero (poly : List Cell) (R : List CostRank) (start : Finset (ℚ × ℚ)) :
    usedFrom poly R start 0 = start := rfl

theorem usedFrom_one (poly : List Cell) (R : List CostRank) (start : Finset (ℚ × ℚ)) :
    usedFrom poly R start 1 = start ∪ consumedKeys poly (rankAt R 0).cost start := rfl

theorem usedFrom_mono (poly : List Cell) (R : List CostRank) (start : Finset (ℚ × ℚ)) :
    ∀ i j : ℕ, i ≤ j → usedFrom poly R start i ⊆ usedFrom poly R start j := by
  intro i j hij
  induction hij with
  | refl => exact Finset.Subset.refl _
  | step h ih =>
    intro x hx
    exact Finset.mem_union_left _ (ih hx)

theorem flatMap_enumFrom_cells (regions : List (List Cell)) : ∀ n : ℕ,
    ((regions.enumFrom n).map (fun ic => mkSubLocation ic.1 ic.2)).flatMap SubLocation.cells =
      (regions.flatMap id).map (fun c => (⟨c.centerLat, c.centerLng, c.cost⟩ : OutCell)) := by
  induction regions with
  | nil => intro n; rfl
  | cons r rs ih =>
    intro n
    rw [List.enumFrom_cons, List.map_cons, List.flatMap_cons, ih (n + 1)]
    have hcells : (mkSubLocation n r).cells =
        r.map (fun c => (⟨c.centerLat, c.centerLng, c.cost⟩ : OutCell)) := rfl
    rw [hcells, List.flatMap_cons, List.map_append]
    rfl

theorem rankCells_eq_flat (r : CostRank) (sel : List Cell)
    (h : r.subLocations = mkSubLocations (find_connected_regions sel)) :
    rankCells r = ((find_connected_regions sel).flatMap id).map
      (fun c => (⟨c.centerLat, c.centerLng, c.cost⟩ : OutCell)) := by
  unfold rankCells
  rw [h]
  unfold mkSubLocations
  rw [List.enum_eq_enumFrom]
  exact flatMap_enumFrom_cells (find_connected_regions sel) 0

theorem rank_keys_nodup (r : CostRank) (sel : List Cell) (hsel : sel ≠ [])
    (h : r.subLocations = mkSubLocations (find_connected_regions sel)) :
    ((rankCells r).map outKey).Nodup := by
  obtain ⟨hnd, -, -, -, -, -⟩ := find_connected_regions_spec sel hsel
  rw [rankCells_eq_flat r sel h, List.map_map]
  have h2 : (((find_connected_regions sel).flatMap id).map cellKey).Nodup := by
    have h3 : ((((find_connected_regions sel).flatMap id).map cellKey).map
        (fun k : ℚ × ℚ => grid_key (inferredPrecision sel) k.1 k.2)).Nodup := by
      rw [List.map_map]
      exact hnd
    exact List.Nodup.of_map _ h3
  exact h2

theorem specExtract_mem_shape (poly : List Cell) :
    ∀ (k base : ℕ) (used : Finset (ℚ × ℚ)), ∀ r ∈ specExtract poly k base used,
      ∃ sel : List Cell, sel ≠ [] ∧
        r.subLocations = mkSubLocations (find_connected_regions sel) := by
  intro k
  induction k with
  | zero =>
    intro base used r hr
    simp [specExtract] at hr
  | succ k ih =>
    intro base used r hr
    by_cases ha : poly.filter (fun c => decide (cellKey c ∉ used)) = []
    · rw [specExtract_nil_of_avail_nil poly (k + 1) base used ha] at hr
      cases hr
    · rw [specExtract_eq_cons poly k base used ha] at hr
      rcases List.mem_cons.mp hr with rfl | hr
      · refine ⟨(poly.filter (fun c => decide (cellKey c ∉ used))).filter
            (fun c => decide (c.cost =
              minCostOf (poly.filter (fun c => decide (cellKey c ∉ used))))), ?_, rfl⟩
        obtain ⟨c0, hc0, hc0c⟩ :=
          minCostOf_mem (poly.filter (fun c => decide (cellKey c ∉ used))) ha
        intro hnil
        have hc0m : c0 ∈ (poly.filter (fun c => decide (cellKey c ∉ used))).filter
            (fun c => decide (c.cost =
              minCostOf (poly.filter (fun c => decide (cellKey c ∉ used))))) := by
          rw [List.mem_filter]
          exact ⟨hc0, by simpa using hc0c⟩
        rw [hnil] at hc0m
        cases hc0m
      · exact ih (base + 1) _ r hr

theorem specExtract_rank_keys (poly : List Cell) :
    ∀ (k base : ℕ) (used : Finset (ℚ × ℚ)) (i : ℕ),
      i < (specExtract poly k base used).length →
      ∀ oc ∈ rankCells (rankAt (specExtract poly k base used) i),
        outKey oc ∉ usedFrom poly (specExtract poly k base used) used i ∧
        outKey oc ∈ usedFrom poly (specExtract poly k base used) used (i + 1) := by
  intro k
  induction k with
  | zero =>
    intro base used i h
    simp [specExtract] at h
  | succ k ih =>
    intro base used i h
    by_cases ha : poly.filter (fun c => decide (cellKey c ∉ used)) = []
    · rw [specExtract_nil_of_avail_nil poly (k + 1) base used ha] at h
      simp at h
    · rw [specExtract_eq_cons poly k base used ha] at h ⊢
      cases i with
      | zero =>
        intro oc hoc
        rw [rankAt_cons_zero] at hoc
        have hshape : (mkCostRank (base + 1)
            (minCostOf (poly.filter (fun c => decide (cellKey c ∉ used))))
            (zoneOfCost (minCostOf (poly.filter (fun c => decide (cellKey c ∉ used)))))
            ((poly.filter (fun c => decide (cellKey c ∉ used))).filter
              (fun c => decide (c.cost =
                minCostOf (poly.filter (fun c => decide (cellKey c ∉ used))))))).subLocations =
            mkSubLocations (find_connected_regions
              ((poly.filter (fun c => decide (cellKey c ∉ used))).filter
                (fun c => decide (c.cost =
                  minCostOf (poly.filter (fun c => decide (cellKey c ∉ used))))))) := rfl
        rw [rankCells_eq_flat _ _ hshape, List.mem_map] at hoc
        obtain ⟨c, hcflat, rfl⟩ := hoc
        have hcsel : c ∈ (poly.filter (fun c => decide (cellKey c ∉ used))).filter
            (fun c => decide (c.cost =
              minCostOf (poly.filter (fun c => decide (cellKey c ∉ used))))) := by
          rw [List.mem_flatMap] at hcflat
          obtain ⟨r, hr, hcr⟩ := hcflat
          exact find_connected_regions_mem _ r hr c hcr
        rw [List.mem_filter] at hcsel
        obtain ⟨hcavail, hccost⟩ := hcsel
        rw [List.mem_filter] at hcavail
        obtain ⟨hcpoly, hcused⟩ := hcavail
        rw [decide_eq_true_eq] at hcused hccost
        have hkey : outKey (⟨c.centerLat, c.centerLng, c.cost⟩ : OutCell) = cellKey c := rfl
        rw [hkey, usedFrom_zero, usedFrom_one, rankAt_cons_zero]
        have hheadcost : (mkCostRank (base + 1)
            (minCostOf (poly.filter (fun c => decide (cellKey c ∉ used))))
            (zoneOfCost (minCostOf (poly.filter (fun c => decide (cellKey c ∉ used)))))
            ((poly.filter (fun c => decide (cellKey c ∉ used))).filter
              (fun c => decide (c.cost =
                minCostOf (poly.filter (fun c => decide (cellKey c ∉ used))))))).cost =
            minCostOf (poly.filter (fun c => decide (cellKey c ∉ used))) := rfl
        rw [hheadcost]
        refine ⟨hcused, ?_⟩
        rw [Finset.mem_union]
        right
        unfold consumedKeys
        rw [List.mem_toFinset, List.mem_map]
        refine ⟨c, ?_, rfl⟩
        rw [List.mem_filter]
        refine ⟨hcpoly, ?_⟩
        rw [Bool.and_eq_true, decide_eq_true_eq, decide_eq_true_eq]
        exact ⟨hccost, hcused⟩
      | succ i =>
        intro oc hoc
        rw [rankAt_cons_succ] at hoc
        rw [usedFrom_cons, usedFrom_cons]
        have hheadcost : (mkCostRank (base + 1)
            (minCostOf (poly.filter (fun c => decide (cellKey c ∉ used))))
            (zoneOfCost (minCostOf (poly.filter (fun c => decide (cellKey c ∉ used)))))
            ((poly.filter (fun c => decide (cellKey c ∉ used))).filter
              (fun c => decide (c.cost =
                minCostOf (poly.filter (fun c => decide (cellKey c ∉ used))))))).cost =
            minCostOf (poly.filter (fun c => decide (cellKey c ∉ used))) := rfl
        rw [hheadcost]
        rw [← insertKeys_filter_eq_consumed poly used
          (minCostOf (poly.filter (fun c => decide (cellKey c ∉ used))))]
        have hlen : i < (specExtract poly k (base + 1)
            (insertKeys
              ((poly.filter (fun c => decide (cellKey c ∉ used))).filter
                (fun c => decide (c.cost =
                  minCostOf (poly.filter (fun c => decide (cellKey c ∉ used))))))
              used)).length := by
          have h2 := h
          simp only [List.length_cons] at h2
          omega
        exact ih (base + 1) _ i hlen oc hoc

/-- C3: in every successful response, the reconstructed used-key set grows
monotonically over the rank sequence, the serialized cells of two distinct
ranks never share a `(lat, lng)` key, and the concatenation of all cells
across all sub-locations of all returned ranks has no duplicate
`(lat, lng)` pair. -/
theorem C3_no_double_consumption (cells : List Cell) (n : ℤ) (d : ℚ) (R : List CostRank)
    (hR : (handle_find_optimal_locations cells n d).locations = some R) :
    (∀ i j : ℕ, i ≤ j → usedUpTo (polyCellsOf cells) R i ⊆ usedUpTo (polyCellsOf cells) R j) ∧
    (∀ i j : ℕ, i < R.length → j < R.length → i ≠ j →
      ∀ oc1 ∈ rankCells (rankAt R i), ∀ oc2 ∈ rankCells (rankAt R j),
        outKey oc1 ≠ outKey oc2) ∧
    ((allRankCells R).map outKey).Nodup := by
  have hReq := handle_locations_eq cells n d R hR
  subst hReq
  have hcross : ∀ i j : ℕ, i < j →
      j < (specExtract (polyCellsOf cells) n.toNat 0 ∅).length →
      ∀ oc1 ∈ rankCells (rankAt (specExtract (polyCellsOf cells) n.toNat 0 ∅) i),
      ∀ oc2 ∈ rankCells (rankAt (specExtract (polyCellsOf cells) n.toNat 0 ∅) j),
      outKey oc1 ≠ outKey oc2 := by
    intro i j hij hj oc1 h1 oc2 h2 hkeq
    obtain ⟨hn1, hy1⟩ := specExtract_rank_keys (polyCellsOf cells) n.toNat 0 ∅ i
      (by omega) oc1 h1
    obtain ⟨hn2, -⟩ := specExtract_rank_keys (polyCellsOf cells) n.toNat 0 ∅ j hj oc2 h2
    have hsub := usedFrom_mono (polyCellsOf cells)
      (specExtract (polyCellsOf cells) n.toNat 0 ∅) ∅ (i + 1) j (by omega)
    apply hn2
    rw [← hkeq]
    exact hsub hy1
  refine ⟨?_, ?_, ?_⟩
  · intro i j hij
    exact usedFrom_mono _ _ _ i j hij
  · intro i j hi hj hij oc1 h1 oc2 h2
    rcases Nat.lt_or_ge i j with h | h
    · exact hcross i j h hj oc1 h1 oc2 h2
    · have hji : j < i := by omega
      intro hkeq
      exact hcross j i hji hi oc2 h2 oc1 h1 hkeq.symm
  · unfold allRankCells
    rw [List.map_flatMap, List.nodup_flatMap]
    constructor
    · intro r hr
      obtain ⟨sel, hselne, hshape⟩ := specExtract_mem_shape (polyCellsOf cells) n.toNat 0 ∅ r hr
      exact rank_keys_nodup r sel hselne hshape
    · rw [List.pairwise_iff_getElem]
      intro i j hi hj hij
      intro k hk1 hk2
      rw [List.mem_map] at hk1 hk2
      obtain ⟨oc1, hoc1, rfl⟩ := hk1
      obtain ⟨oc2, hoc2, hkeq⟩ := hk2
      have hRi : rankAt (specExtract (polyCellsOf cells) n.toNat 0 ∅) i =
          (specExtract (polyCellsOf cells) n.toNat 0 ∅)[i] := by
        unfold rankAt
        rw [List.getD_eq_getElem _ _ hi]
      have hRj : rankAt (specExtract (polyCellsOf cells) n.toNat 0 ∅) j =
          (specExtract (polyCellsOf cells) n.toNat 0 ∅)[j] := by
        unfold rankAt
        rw [List.getD_eq_getElem _ _ hj]
      exact hcross i j hij hj oc1 (by rw [hRi]; exact hoc1) oc2
        (by rw [hRj]; exact hoc2) hkeq.symm

unseal Rat.add Rat.mul Rat.inv Rat.sub Rat.ofScientific in
/-- C3 (witness): the theorem applied to the sample request. -/
theorem C3_no_double_consumption_witness :
    (handle_find_optimal_locations sampleCells 2 (1/2)).locations =
      some (specExtract (polyCellsOf sampleCells) 2 0 ∅) ∧
    ((∀ i j : ℕ, i ≤ j →
        usedUpTo (polyCellsOf sampleCells) (specExtract (polyCellsOf sampleCells) 2 0 ∅) i ⊆
        usedUpTo (polyCellsOf sampleCells) (specExtract (polyCellsOf sampleCells) 2 0 ∅) j) ∧
      (∀ i j : ℕ, i < (specExtract (polyCellsOf sampleCells) 2 0 ∅).length →
        j < (specExtract (polyCellsOf sampleCells) 2 0 ∅).length → i ≠ j →
        ∀ oc1 ∈ rankCells (rankAt (specExtract (polyCellsOf sampleCells) 2 0 ∅) i),
        ∀ oc2 ∈ rankCells (rankAt (specExtract (polyCellsOf sampleCells) 2 0 ∅) j),
          outKey oc1 ≠ outKey oc2) ∧
      ((allRankCells (specExtract (polyCellsOf sampleCells) 2 0 ∅)).map outKey).Nodup) :=
  ⟨by decide, C3_no_double_consumption sampleCells 2 (1/2) _ (by decide)⟩

/-! ## Claim C9: permutation invariance of the partition -/

theorem cellLatLngLe_antisymm_key (a b : Cell) (h1 : cellLatLngLe a b)
    (h2 : cellLatLngLe b a) : cellKey a = cellKey b := by
  unfold cellLatLngLe at h1 h2
  unfold cellKey
  rcases h1 with h | ⟨ha, hb⟩ <;> rcases h2 with h' | ⟨ha', hb'⟩
  · exact absurd h' (lt_asymm h)
  · exfalso
    rw [ha'] at h
    exact lt_irrefl _ h
  · exfalso
    rw [ha] at h'
    exact lt_irrefl _ h'
  · rw [ha, le_antisymm hb hb']

theorem sorted_perm_eq : ∀ (l1 l2 : List Cell),
    List.Perm l1 l2 → l1.Pairwise cellLatLngLe → l2.Pairwise cellLatLngLe →
    (∀ a ∈ l1, ∀ b ∈ l1, cellKey a = cellKey b → a = b) → l1 = l2 := by
  intro l1
  induction l1 with
  | nil =>
    intro l2 hp _ _ _
    exact hp.nil_eq
  | cons a l1 ih =>
    intro l2 hp hs1 hs2 hinj
    cases l2 with
    | nil =>
      have := hp.length_eq
      simp at this
    | cons b l2 =>
      have hab : a = b := by
        by_contra hne
        have hamem : a ∈ b :: l2 := hp.mem_iff.mp (List.mem_cons_self _ _)
        have hbmem : b ∈ a :: l1 := hp.mem_iff.mpr (List.mem_cons_self _ _)
        rcases List.mem_cons.mp hamem with h | ha2
        · exact hne h
        rcases List.mem_cons.mp hbmem with h | hb1
        · exact hne h.symm
        have h1 : cellLatLngLe a b := (List.pairwise_cons.mp hs1).1 b hb1
        have h2 : cellLatLngLe b a := (List.pairwise_cons.mp hs2).1 a ha2
        exact hne (hinj a (List.mem_cons_self _ _) b (List.mem_cons_of_mem _ hb1)
          (cellLatLngLe_antisymm_key a b h1 h2))
      subst hab
      have hp' : List.Perm l1 l2 := hp.cons_inv
      have hinj' : ∀ x ∈ l1, ∀ y ∈ l1, cellKey x = cellKey y → x = y := by
        intro x hx y hy hk
        exact hinj x (List.mem_cons_of_mem _ hx) y (List.mem_cons_of_mem _ hy) hk
      rw [ih l2 hp' (List.pairwise_cons.mp hs1).2 (List.pairwise_cons.mp hs2).2 hinj']

theorem cellKeyInj_of_keysInjective (cells : List Cell) (hinj : KeysInjective cells) :
    ∀ a ∈ cells, ∀ b ∈ cells, cellKey a = cellKey b → a = b := by
  intro a ha b hb hk
  apply hinj a ha b hb
  show grid_key (inferredPrecision cells) a.centerLat a.centerLng =
    grid_key (inferredPrecision cells) b.centerLat b.centerLng
  have h1 : a.centerLat = b.centerLat := congrArg Prod.fst hk
  have h2 : a.centerLng = b.centerLng := congrArg Prod.snd hk
  rw [h1, h2]

theorem sortCells_congr (cells cells' : List Cell) (hperm : List.Perm cells cells')
    (hinj : ∀ a ∈ cells, ∀ b ∈ cells, cellKey a = cellKey b → a = b) :
    sortCells cells = sortCells cells' := by
  apply sorted_perm_eq
  · exact ((List.perm_insertionSort _ _).trans hperm).trans (List.perm_insertionSort _ _).symm
  · exact List.sorted_insertionSort _ _
  · exact List.sorted_insertionSort _ _
  · intro x hx y hy hk
    exact hinj x ((List.perm_insertionSort _ cells).mem_iff.mp hx)
      y ((List.perm_insertionSort _ cells).mem_iff.mp hy) hk

theorem inferGridSpacing_congr (cells cells' : List Cell) (hperm : List.Perm cells cells')
    (hinj : KeysInjective cells) : inferGridSpacing cells = inferGridSpacing cells' := by
  have hs : sortCells cells = sortCells cells' :=
    sortCells_congr cells cells' hperm (cellKeyInj_of_keysInjective cells hinj)
  unfold inferGridSpacing
  rw [hperm.length_eq, hs]

theorem inferredPrecision_congr (cells cells' : List Cell) (hperm : List.Perm cells cells')
    (hinj : KeysInjective cells) : inferredPrecision cells = inferredPrecision cells' := by
  unfold inferredPrecision
  rw [inferGridSpacing_congr cells cells' hperm hinj]

theorem keysInjective_perm (cells cells' : List Cell) (hperm : List.Perm cells cells')
    (hinj : KeysInjective cells) : KeysInjective cells' := by
  unfold KeysInjective
  intro c1 h1 c2 h2 hk
  apply hinj c1 (hperm.mem_iff.mpr h1) c2 (hperm.mem_iff.mpr h2)
  rw [inferredPrecision_congr cells cells' hperm hinj]
  exact hk

theorem cellAdj_congr (cells cells' : List Cell) (hperm : List.Perm cells cells')
    (hinj : KeysInjective cells) (c1 c2 : Cell) :
    cellAdj cells c1 c2 ↔ cellAdj cells' c1 c2 := by
  unfold cellAdj
  rw [inferGridSpacing_congr cells cells' hperm hinj,
    inferredPrecision_congr cells cells' hperm hinj]

theorem adjSymmetric_perm (cells cells' : List Cell) (hperm : List.Perm cells cells')
    (hinj : KeysInjective cells) (hsym : AdjSymmetric cells) : AdjSymmetric cells' := by
  unfold AdjSymmetric
  intro c1 h1 c2 h2 hadj
  rw [← cellAdj_congr cells cells' hperm hinj]
  exact hsym c1 (hperm.mem_iff.mpr h1) c2 (hperm.mem_iff.mpr h2)
    ((cellAdj_congr cells cells' hperm hinj c1 c2).mpr hadj)

theorem Reach_congr (m m' : List ((ℚ × ℚ) × Cell)) (offs : List (ℚ × ℚ)) (p : ℤ)
    (hext : ∀ k, mapLookup m k = mapLookup m' k) {k1 k2 : ℚ × ℚ}
    (h : Reach m offs p k1 k2) : Reach m' offs p k1 k2 := by
  induction h with
  | refl => exact Relation.ReflTransGen.refl
  | tail h1 h2 ih =>
    refine Relation.ReflTransGen.tail ih ?_
    obtain ⟨hs1, hs2, hadj⟩ := h2
    exact ⟨hext _ ▸ hs1, hext _ ▸ hs2, hadj⟩

theorem region_component_closed (cells : List Cell) (hne : cells ≠ [])
    (hsym : AdjSymmetric cells) :
    ∀ i, i < (find_connected_regions cells).length →
    ∀ c ∈ (find_connected_regions cells).getD i [],
    ∀ k', Reach (buildCellMap (inferredPrecision cells) cells)
        (neighbor_offsets (inferGridSpacing cells)) (inferredPrecision cells)
        (cellGridKey (inferredPrecision cells) c) k' →
      ∃ c', c' ∈ (find_connected_regions cells).getD i [] ∧
        cellGridKey (inferredPrecision cells) c' = k' := by
  obtain ⟨hnd, hlook, hkeys, hnonempty, hE, hF⟩ := find_connected_regions_spec cells hne
  intro i hi c hc k' hreach
  have hri : (find_connected_regions cells).getD i [] ∈ find_connected_regions cells := by
    rw [List.getD_eq_getElem _ _ hi]
    exact List.getElem_mem hi
  induction hreach with
  | refl => exact ⟨c, hc, rfl⟩
  | tail h1 h2 ih =>
    obtain ⟨c2, hc2, hk2⟩ := ih
    obtain ⟨hsb, hsk, hadj⟩ := h2
    obtain ⟨c3, hc3look⟩ := Option.isSome_iff_exists.mp hsk
    obtain ⟨hc3cells, hc3key⟩ := mapLookup_cells _ _ _ _ hc3look
    have hc2cells : c2 ∈ cells := by
      have h4 := mem_flat_of_mem_getD _ i hi c2 hc2
      rw [List.mem_flatMap] at h4
      obtain ⟨r2, hr2, hcr2⟩ := h4
      exact find_connected_regions_mem cells r2 hr2 c2 hcr2
    have hboth : keyAdj (inferredPrecision cells) (neighbor_offsets (inferGridSpacing cells))
        (cellGridKey (inferredPrecision cells) c2) (cellGridKey (inferredPrecision cells) c3) ∧
        keyAdj (inferredPrecision cells) (neighbor_offsets (inferGridSpacing cells))
        (cellGridKey (inferredPrecision cells) c3) (cellGridKey (inferredPrecision cells) c2) := by
      rcases hadj with h | h
      · have hfwd : cellAdj cells c2 c3 := by
          unfold cellAdj
          rw [hk2, ← hc3key]
          exact h
        exact ⟨hfwd, hsym c2 hc2cells c3 hc3cells hfwd⟩
      · have hbwd : cellAdj cells c3 c2 := by
          unfold cellAdj
          rw [hk2, ← hc3key]
          exact h
        exact ⟨hsym c3 hc3cells c2 hc2cells hbwd, hbwd⟩
    obtain ⟨hfwd, hbwd⟩ := hboth
    unfold keyAdj at hfwd hbwd
    obtain ⟨d1, hd1, hdk1⟩ := hfwd
    obtain ⟨d2, hd2, hdk2⟩ := hbwd
    have hnb1 : nbrKey (inferredPrecision cells) (cellGridKey (inferredPrecision cells) c2) d1 =
        cellGridKey (inferredPrecision cells) c3 := hdk1
    have hsome1 : (mapLookup (buildCellMap (inferredPrecision cells) cells)
        (nbrKey (inferredPrecision cells) (cellGridKey (inferredPrecision cells) c2) d1)).isSome := by
      rw [hnb1, ← hc3key]
      exact hsk
    obtain ⟨j, hjle, c4, hc4, hk4⟩ := hE i hi c2 hc2 d1 hd1 hsome1
    rw [hnb1] at hk4
    have hjlt : j < (find_connected_regions cells).length := lt_of_le_of_lt hjle hi
    have hnb2 : nbrKey (inferredPrecision cells) (cellGridKey (inferredPrecision cells) c4) d2 =
        cellGridKey (inferredPrecision cells) c2 := by
      rw [hk4]
      exact hdk2
    have hsome2 : (mapLookup (buildCellMap (inferredPrecision cells) cells)
        (nbrKey (inferredPrecision cells) (cellGridKey (inferredPrecision cells) c4) d2)).isSome := by
      rw [hnb2, hlook _ hri c2 hc2]
      rfl
    obtain ⟨j2, hj2le, c5, hc5, hk5⟩ := hE j hjlt c4 hc4 d2 hd2 hsome2
    rw [hnb2] at hk5
    obtain ⟨hj2eq, -⟩ := flat_keys_inj (inferredPrecision cells) (find_connected_regions cells)
      hnd j2 (lt_of_le_of_lt hj2le hjlt) i hi c5 hc5 c2 hc2 hk5
    have hji : j = i := by omega
    subst hji
    refine ⟨c4, hc4, ?_⟩
    rw [hk4, ← hc3key]

theorem mem_partitionOf (cells : List Cell) (X : Finset Cell) :
    X ∈ partitionOf cells ↔ ∃ r ∈ find_connected_regions cells, r.toFinset = X := by
  unfold partitionOf
  rw [List.mem_toFinset, List.mem_map]

theorem partitionOf_subset_perm (cells cells' : List Cell) (hperm : List.Perm cells cells')
    (hne : cells ≠ []) (hinj : KeysInjective cells) (hsym : AdjSymmetric cells) :
    partitionOf cells ⊆ partitionOf cells' := by
  have hne' : cells' ≠ [] := by
    intro h
    subst h
    have hl := hperm.length_eq
    simp at hl
    exact hne hl
  have hsym' : AdjSymmetric cells' := adjSymmetric_perm cells cells' hperm hinj hsym
  have hp : inferredPrecision cells' = inferredPrecision cells :=
    (inferredPrecision_congr cells cells' hperm hinj).symm
  have hg : inferGridSpacing cells' = inferGridSpacing cells :=
    (inferGridSpacing_congr cells cells' hperm hinj).symm
  have hinjp' : ∀ c1 ∈ cells', ∀ c2 ∈ cells',
      cellGridKey (inferredPrecision cells) c1 = cellGridKey (inferredPrecision cells) c2 →
      c1 = c2 := by
    intro c1 h1 c2 h2 hk
    exact hinj c1 (hperm.mem_iff.mpr h1) c2 (hperm.mem_iff.mpr h2) hk
  have hext : ∀ k, mapLookup (buildCellMap (inferredPrecision cells) cells) k =
      mapLookup (buildCellMap (inferredPrecision cells) cells') k :=
    mapLookup_buildCellMap_ext (inferredPrecision cells) cells cells' hperm hinj
  obtain ⟨hnd, hlook, hkeys, hnonempty, hE, hF⟩ := find_connected_regions_spec cells hne
  obtain ⟨hnd', hlook', hkeys', hnonempty', hE', hF'⟩ := find_connected_regions_spec cells' hne'
  rw [hp] at hkeys' hF'
  rw [hg] at hF'
  have hclosed' := region_component_closed cells' hne' hsym'
  rw [hp, hg] at hclosed'
  have hclosed := region_component_closed cells hne hsym
  intro X hX
  rw [mem_partitionOf] at hX
  obtain ⟨r, hr, rfl⟩ := hX
  obtain ⟨i, hi, hri⟩ := List.mem_iff_getElem.mp hr
  obtain ⟨c0, hc0r⟩ := List.exists_mem_of_ne_nil r (hnonempty r hr)
  have hc0i : c0 ∈ (find_connected_regions cells).getD i [] := by
    rw [List.getD_eq_getElem _ _ hi, hri]
    exact hc0r
  have hc0cells : c0 ∈ cells := find_connected_regions_mem cells r hr c0 hc0r
  have hc0cells' : c0 ∈ cells' := hperm.mem_iff.mp hc0cells
  have hk0 := hkeys' c0 hc0cells'
  rw [List.mem_map] at hk0
  obtain ⟨c0', hc0'flat, hk0eq⟩ := hk0
  have hc0'cells' : c0' ∈ cells' := by
    have h4 := hc0'flat
    rw [List.mem_flatMap] at h4
    obtain ⟨r2, hr2, hcr2⟩ := h4
    exact find_connected_regions_mem cells' r2 hr2 c0' hcr2
  have hc00 : c0' = c0 := hinjp' c0' hc0'cells' c0 hc0cells' hk0eq
  subst hc00
  rw [List.mem_flatMap] at hc0'flat
  obtain ⟨r', hr', hc0r'⟩ := hc0'flat
  obtain ⟨i', hi', hr'i⟩ := List.mem_iff_getElem.mp hr'
  have hc0i' : c0' ∈ (find_connected_regions cells').getD i' [] := by
    rw [List.getD_eq_getElem _ _ hi', hr'i]
    exact hc0r'
  have hset : ∀ x : Cell, x ∈ r ↔ x ∈ r' := by
    intro x
    constructor
    · intro hx
      have hxi : x ∈ (find_connected_regions cells).getD i [] := by
        rw [List.getD_eq_getElem _ _ hi, hri]
        exact hx
      have hreach : Reach (buildCellMap (inferredPrecision cells) cells)
          (neighbor_offsets (inferGridSpacing cells)) (inferredPrecision cells)
          (cellGridKey (inferredPrecision cells) c0') (cellGridKey (inferredPrecision cells) x) :=
        hF i hi c0' hc0i x hxi
      have hreach' := Reach_congr _ _ _ _ hext hreach
      obtain ⟨x', hx'i', hx'k⟩ := hclosed' i' hi' c0' hc0i' _ hreach'
      have hx'cells' : x' ∈ cells' := by
        have h4 := mem_flat_of_mem_getD _ i' hi' x' hx'i'
        rw [List.mem_flatMap] at h4
        obtain ⟨r2, hr2, hcr2⟩ := h4
        exact find_connected_regions_mem cells' r2 hr2 x' hcr2
      have hxcells' : x ∈ cells' :=
        hperm.mem_iff.mp (find_connected_regions_mem cells r hr x hx)
      have hxx : x' = x := hinjp' x' hx'cells' x hxcells' hx'k
      subst hxx
      rw [List.getD_eq_getElem _ _ hi', hr'i] at hx'i'
      exact hx'i'
    · intro hx
      have hxi' : x ∈ (find_connected_regions cells').getD i' [] := by
        rw [List.getD_eq_getElem _ _ hi', hr'i]
        exact hx
      have hreach' : Reach (buildCellMap (inferredPrecision cells) cells')
          (neighbor_offsets (inferGridSpacing cells)) (inferredPrecision cells)
          (cellGridKey (inferredPrecision cells) c0') (cellGridKey (inferredPrecision cells) x) :=
        hF' i' hi' c0' hc0i' x hxi'
      have hreach := Reach_congr _ _ _ _ (fun k => (hext k).symm) hreach'
      obtain ⟨x', hx'i, hx'k⟩ := hclosed i hi c0' hc0i _ hreach
      have hx'cells : x' ∈ cells := by
        have h4 := mem_flat_of_mem_getD _ i hi x' hx'i
        rw [List.mem_flatMap] at h4
        obtain ⟨r2, hr2, hcr2⟩ := h4
        exact find_connected_regions_mem cells r2 hr2 x' hcr2
      have hxcells : x ∈ cells := by
        rw [hperm.mem_iff]
        exact find_connected_regions_mem cells' r' hr' x hx
      have hxx : x' = x := hinj x' hx'cells x hxcells hx'k
      subst hxx
      rw [List.getD_eq_getElem _ _ hi, hri] at hx'i
      exact hx'i
  rw [mem_partitionOf]
  refine ⟨r', hr', ?_⟩
  apply Finset.ext
  intro x
  rw [List.mem_toFinset, List.mem_toFinset]
  exact (hset x).symm

unseal Rat.add Rat.mul Rat.inv Rat.sub Rat.ofScientific in
/-- C9 (counterexample): `collidingCells` and a reordering of it are
permutations of the same fixed set of same-cost cells, yet the clusterer
returns different partitions, because the last-write-wins dict keeps a
different cell of the colliding key depending on input order. -/
theorem C9_counterexample :
    List.Perm collidingCells collidingCellsSwapped ∧
    (∀ c ∈ collidingCells, ∀ c' ∈ collidingCells, c.cost = c'.cost) ∧
    partitionOf collidingCells ≠ partitionOf collidingCellsSwapped := by
  decide

/-- C9 (amended): for a non-empty input whose cells map to pairwise
distinct grid keys at the inferred resolution and whose quantized
8-neighbour relation is symmetric on the input, any permutation of the
input yields the same partition of the cells into regions, viewed as a set
of cell sets.  (Without key injectivity the kept cell of a colliding key
depends on input order, `C9_counterexample`.) -/
theorem C9_permutation_invariance (cells cells' : List Cell)
    (hperm : List.Perm cells cells') (hne : cells ≠ [])
    (hinj : KeysInjective cells) (hsym : AdjSymmetric cells) :
    partitionOf cells = partitionOf cells' := by
  have hne' : cells' ≠ [] := by
    intro h
    subst h
    have hl := hperm.length_eq
    simp at hl
    exact hne hl
  apply Finset.Subset.antisymm
  · exact partitionOf_subset_perm cells cells' hperm hne hinj hsym
  · exact partitionOf_subset_perm cells' cells hperm.symm hne'
      (keysInjective_perm cells cells' hperm hinj)
      (adjSymmetric_perm cells cells' hperm hinj hsym)

unseal Rat.add Rat.mul Rat.inv Rat.sub Rat.ofScientific in
/-- C9 (witness): the amended theorem applied to the sample request and
its reversal. -/
theorem C9_permutation_invariance_witness :
    List.Perm sampleCells sampleCellsPerm ∧ sampleCells ≠ [] ∧
    KeysInjective sampleCells ∧ AdjSymmetric sampleCells ∧
    partitionOf sampleCells = partitionOf sampleCellsPerm :=
  ⟨by decide, by decide, by decide, by decide,
    C9_permutation_invariance sampleCells sampleCellsPerm (by decide) (by decide)
      (by decide) (by decide)⟩
